import Mathlib

/-!
Verification development for the agentic edit-resolution engine:
a shallow embedding of the Conversation Turn Engine
(crates/agent2/src/agent.rs), the Fuzzy Location Resolver
(crates/assistant_tools/src/edit_agent.rs), and the Streaming Edit Block
Parser, together with theorems settling the specification claims.

Conventions of the embedding:
- Rust `String`/`&str` values are Lean `String`s; byte strings are
  `List Nat` (each element a byte value).
- `u32` arithmetic uses `Nat` with an explicit saturation bound
  `U32_MAX` mirroring `u32::saturating_add`.
- Asynchronous tasks are modelled by their eventual values; the
  completion order of a set of concurrent tasks is modelled explicitly
  (see `join_all`).
- A Rust panic (`todo!()`) is modelled by `Option.none` outcomes.
- The document snapshot (`BufferSnapshot`) is an external collaborator;
  its byte/line addressing operations are modelled on `List Nat`.
-/

/-! ## Conversation Turn Engine data model (crates/agent2/src/agent.rs) -/

inductive Role
  | system
  | user
  | assistant
deriving DecidableEq

inductive StopReason
  | endTurn
  | toolUse
  | maxTokens
deriving DecidableEq

structure LanguageModelToolUse where
  id : String
  name : String
  input : String
  is_input_complete : Bool
deriving DecidableEq

structure LanguageModelToolResult where
  tool_use_id : String
  tool_name : String
  is_error : Bool
  content : String
deriving DecidableEq

inductive MessageContent
  | text (s : String)
  | toolUse (tu : LanguageModelToolUse)
  | toolResult (tr : LanguageModelToolResult)
deriving DecidableEq

structure AgentMessage where
  role : Role
  content : List MessageContent
deriving DecidableEq

inductive LanguageModelCompletionEvent
  | text (s : String)
  | thinking (s : String)
  | toolUse (tu : LanguageModelToolUse)
  | startMessage (role : Role)
  | usageUpdate
  | stop (reason : StopReason)
deriving DecidableEq

deriving instance DecidableEq for Except

/-- A registered tool capability: `run(input) -> Result<String>`, modelled by
its eventual result as a function of the input. -/
def ToolImpl : Type := String → Except String String

/-- The tool registry: a name-keyed map, modelled as an association list. -/
def ToolRegistry : Type := List (String × ToolImpl)

/-- `Agent::last_assistant_message`: if the history is empty or its last
message is not from the assistant, push a fresh empty assistant message. -/
def last_assistant_message (messages : List AgentMessage) : List AgentMessage :=
  match messages.getLast? with
  | none => messages ++ [⟨Role.assistant, []⟩]
  | some m =>
    if m.role = Role.assistant then messages
    else messages ++ [⟨Role.assistant, []⟩]

/-- Apply `f` to the last element of a list (mutation through the `&mut`
reference returned by `last_assistant_message`). -/
def update_last (f : AgentMessage → AgentMessage) : List AgentMessage → List AgentMessage
  | [] => []
  | [m] => [f m]
  | m :: rest => m :: update_last f rest

/-- `Agent::handle_text_event`: append to a trailing text content part of the
current assistant message, or push a new text part. -/
def handle_text_event (messages : List AgentMessage) (new_text : String) : List AgentMessage :=
  update_last
    (fun m =>
      match m.content.getLast? with
      | some (MessageContent.text t) =>
        ⟨m.role, m.content.dropLast ++ [MessageContent.text (t ++ new_text)]⟩
      | _ => ⟨m.role, m.content ++ [MessageContent.text new_text]⟩)
    (last_assistant_message messages)

/-- `Agent::handle_tool_use_event`: push the tool use as a content part of the
last assistant message; if its input is complete, produce the (eventual) tool
result task: run the registered tool, converting failures into error-tagged
results, or an error-tagged "No tool named ..." result for unknown names. -/
def handle_tool_use_event (tools : ToolRegistry) (messages : List AgentMessage)
    (tool_use : LanguageModelToolUse) :
    List AgentMessage × Option LanguageModelToolResult :=
  let messages := update_last
    (fun m => ⟨m.role, m.content ++ [MessageContent.toolUse tool_use]⟩)
    (last_assistant_message messages)
  if !tool_use.is_input_complete then (messages, none)
  else
    match List.lookup tool_use.name tools with
    | some tool =>
      (messages,
        some (match tool tool_use.input with
          | Except.ok tool_output =>
            ⟨tool_use.id, tool_use.name, false, tool_output⟩
          | Except.error error =>
            ⟨tool_use.id, tool_use.name, true, error⟩))
    | none =>
      (messages,
        some ⟨tool_use.id, tool_use.name, true,
          "No tool named " ++ tool_use.name ++ " exists"⟩)

/-- `Agent::handle_stop_event`: `EndTurn` and `ToolUse` are benign;
`MaxTokens` hits `todo!()`, i.e. panics — modelled by `none`. -/
def handle_stop_event : StopReason → Option Unit
  | StopReason.endTurn => some ()
  | StopReason.toolUse => some ()
  | StopReason.maxTokens => none

/-- `Agent::handle_response_event` (minus the verbatim event forwarding, which
is modelled at the stream-processing level): returns the updated history and
an optional queued tool task, or `none` if the handler panicked. Note the
guard: `handle_tool_use_event` is invoked only when `is_input_complete`. -/
def handle_response_event (tools : ToolRegistry) (messages : List AgentMessage) :
    LanguageModelCompletionEvent →
    Option (List AgentMessage × Option LanguageModelToolResult)
  | LanguageModelCompletionEvent.text s => some (handle_text_event messages s, none)
  | LanguageModelCompletionEvent.thinking _ => some (messages, none)
  | LanguageModelCompletionEvent.toolUse tu =>
    if tu.is_input_complete then some (handle_tool_use_event tools messages tu)
    else some (messages, none)
  | LanguageModelCompletionEvent.startMessage role => some (messages ++ [⟨role, []⟩], none)
  | LanguageModelCompletionEvent.usageUpdate => some (messages, none)
  | LanguageModelCompletionEvent.stop reason =>
    (handle_stop_event reason).map (fun _ => (messages, none))

/-- Outcome of consuming one round's event stream in `Agent::send`. -/
structure ProcessResult where
  messages : List AgentMessage
  emitted : List (Except String LanguageModelCompletionEvent)
  queued : List LanguageModelToolResult
  panicked : Bool
deriving DecidableEq

/-- The `while let Some(event) = events.next().await` loop of `Agent::send`:
each `Ok` event is forwarded on the channel then handled (collecting queued
tool tasks in invocation order); an `Err` is forwarded and breaks the loop;
a handler panic aborts the stream after the event was forwarded. -/
def process_stream_events (tools : ToolRegistry) (messages : List AgentMessage) :
    List (Except String LanguageModelCompletionEvent) → ProcessResult
  | [] => ⟨messages, [], [], false⟩
  | Except.error e :: _ => ⟨messages, [Except.error e], [], false⟩
  | Except.ok ev :: rest =>
    match handle_response_event tools messages ev with
    | none => ⟨messages, [Except.ok ev], [], true⟩
    | some (messages', queued_one) =>
      let r := process_stream_events tools messages' rest
      ⟨r.messages, Except.ok ev :: r.emitted, queued_one.toList ++ r.queued, r.panicked⟩

/-- Model of `futures::future::join_all` over already-spawned tasks: tasks
complete in the order given by `completion_order` (indices into `tasks`),
each writing its result into its own slot; the joined output reads the slots
in task order once all have completed. -/
def join_all (tasks : List LanguageModelToolResult) (completion_order : List Nat) :
    List (Option LanguageModelToolResult) :=
  completion_order.foldl (fun slots i => slots.set i tasks[i]?)
    (List.replicate tasks.length none)

/-- Outcome of one iteration of the request loop in `Agent::send`. -/
structure RoundResult where
  messages : List AgentMessage
  emitted : List (Except String LanguageModelCompletionEvent)
  panicked : Bool
  ended : Bool
deriving DecidableEq

/-- One iteration of the `loop` in `Agent::send`: stream the round's events;
if no tool uses were queued the turn is done; otherwise await all queued tool
tasks (`join_all`) and push a single `User` message with all tool results. -/
def run_round (tools : ToolRegistry) (messages : List AgentMessage)
    (events : List (Except String LanguageModelCompletionEvent))
    (completion_order : List Nat) : RoundResult :=
  let p := process_stream_events tools messages events
  if p.panicked then ⟨p.messages, p.emitted, true, true⟩
  else if p.queued.isEmpty then ⟨p.messages, p.emitted, false, true⟩
  else
    ⟨p.messages ++
        [⟨Role.user,
          ((join_all p.queued completion_order).reduceOption).map MessageContent.toolResult⟩],
      p.emitted, false, false⟩

/-- Result of a whole turn: final history, events forwarded on the channel,
number of completion requests issued, and whether the task panicked. -/
structure TurnResult where
  messages : List AgentMessage
  emitted : List (Except String LanguageModelCompletionEvent)
  requests : Nat
  panicked : Bool
deriving DecidableEq

/-- Flattened content parts across the whole history (observable transcript
content, used to state append-only properties). -/
def all_content_parts (messages : List AgentMessage) : List MessageContent :=
  (messages.map (fun m => m.content)).flatten

/-- The request loop of `Agent::send`, driven by a script of model responses
(`rounds`, one event list per completion request) and one completion order per
round for the queued tool tasks. -/
def run_turn (tools : ToolRegistry) (messages : List AgentMessage) :
    List (List (Except String LanguageModelCompletionEvent)) → List (List Nat) → TurnResult
  | [], _ => ⟨messages, [], 0, false⟩
  | events :: more, orders =>
    let r := run_round tools messages events (orders.headD [])
    if r.panicked then ⟨r.messages, r.emitted, 1, true⟩
    else if r.ended then ⟨r.messages, r.emitted, 1, false⟩
    else
      let t := run_turn tools r.messages more orders.tail
      ⟨t.messages, r.emitted ++ t.emitted, 1 + t.requests, t.panicked⟩

/-! ## Fuzzy Location Resolver (crates/assistant_tools/src/edit_agent.rs) -/

def INSERTION_COST : Nat := 3
def DELETION_COST : Nat := 10
def WHITESPACE_INSERTION_COST : Nat := 1
def WHITESPACE_DELETION_COST : Nat := 1

/-- `u32::MAX`. -/
def U32_MAX : Nat := 4294967295

/-- `u32::saturating_add` on the `Nat` model. -/
def saturating_add (a b : Nat) : Nat := min (a + b) U32_MAX

/-- `u8::is_ascii_whitespace`: space, tab, newline, form feed, carriage return. -/
def is_ascii_whitespace (b : Nat) : Bool :=
  b == 32 || b == 9 || b == 10 || b == 12 || b == 13

inductive SearchDirection
  | Up
  | Left
  | Diagonal
deriving DecidableEq

structure SearchState where
  cost : Nat
  direction : SearchDirection
deriving DecidableEq

def SearchState.new (cost : Nat) (direction : SearchDirection) : SearchState :=
  ⟨cost, direction⟩

/-- Rank of a direction in the derived `Ord` on `SearchDirection`
(declaration order: `Up < Left < Diagonal`). -/
def SearchDirection.rank : SearchDirection → Nat
  | SearchDirection.Up => 0
  | SearchDirection.Left => 1
  | SearchDirection.Diagonal => 2

/-- Rust `Ord::min` on `SearchState` under the derived lexicographic order
(`cost` first, then `direction`); on full equality the first argument is
returned. -/
def SearchState.min (a b : SearchState) : SearchState :=
  if a.cost < b.cost then a
  else if b.cost < a.cost then b
  else if a.direction.rank ≤ b.direction.rank then a else b

structure SearchMatrix where
  cols : Nat
  data : List SearchState

def SearchMatrix.new (rows cols : Nat) : SearchMatrix :=
  ⟨cols, List.replicate (rows * cols) (SearchState.new 0 SearchDirection.Diagonal)⟩

def SearchMatrix.get (m : SearchMatrix) (row col : Nat) : SearchState :=
  m.data.getD (row * m.cols + col) (SearchState.new 0 SearchDirection.Diagonal)

def SearchMatrix.set (m : SearchMatrix) (row col : Nat) (state : SearchState) : SearchMatrix :=
  ⟨m.cols, m.data.set (row * m.cols + col) state⟩

/-- The per-row deletion cost of a query byte. -/
def deletion_cost_of (query_byte : Nat) : Nat :=
  if is_ascii_whitespace query_byte then WHITESPACE_DELETION_COST else DELETION_COST

/-- The per-column insertion cost of a buffer byte. -/
def insertion_cost_of (buffer_byte : Nat) : Nat :=
  if is_ascii_whitespace buffer_byte then WHITESPACE_INSERTION_COST else INSERTION_COST

/-- Inner loop of `EditAgent::resolve_location`: fill row `row+1` of the
matrix, walking the buffer bytes from column index `col`. -/
def fill_row (query_byte deletion_cost row : Nat) :
    List Nat → Nat → SearchMatrix → SearchMatrix
  | [], _, m => m
  | buffer_byte :: rest, col, m =>
    let insertion_cost := insertion_cost_of buffer_byte
    let up := SearchState.new
      (saturating_add (m.get row (col + 1)).cost deletion_cost) SearchDirection.Up
    let left := SearchState.new
      (saturating_add (m.get (row + 1) col).cost insertion_cost) SearchDirection.Left
    let diagonal := SearchState.new
      (if query_byte == buffer_byte then (m.get row col).cost
       else saturating_add (m.get row col).cost (deletion_cost + insertion_cost))
      SearchDirection.Diagonal
    fill_row query_byte deletion_cost row rest (col + 1)
      (m.set (row + 1) (col + 1) ((up.min left).min diagonal))

/-- Outer loop of `EditAgent::resolve_location`: walk the query bytes from
row index `row`, threading the accumulated leading deletion cost. -/
def fill_rows (buffer : List Nat) :
    List Nat → Nat → Nat → SearchMatrix → SearchMatrix
  | [], _, _, m => m
  | query_byte :: rest, row, leading_deletion_cost, m =>
    let deletion_cost := deletion_cost_of query_byte
    let ldc := saturating_add leading_deletion_cost deletion_cost
    let m := m.set (row + 1) 0 (SearchState.new ldc SearchDirection.Diagonal)
    let m := fill_row query_byte deletion_cost row buffer 0 m
    fill_rows buffer rest (row + 1) ldc m

/-- The filled alignment matrix of `EditAgent::resolve_location`. -/
def search_matrix (search_query buffer : List Nat) : SearchMatrix :=
  fill_rows buffer search_query 0 0
    (SearchMatrix.new (search_query.length + 1) (buffer.length + 1))

/-- The bottom-row scan of `EditAgent::resolve_location`:
`best_cost` starts at `u32::MAX`, `best_buffer_end` at `buffer_len`, and the
scan visits columns `1..=buffer_len`, updating on strict improvement.
Returns `(best_cost, best_buffer_end)`. -/
def best_match_end (m : SearchMatrix) (query_len buffer_len : Nat) : Nat × Nat :=
  (List.range' 1 buffer_len).foldl
    (fun best col =>
      let cost := (m.get query_len col).cost
      if cost < best.1 then (cost, col) else best)
    (U32_MAX, buffer_len)

/-- The bottom-row scan generalized over the number of scanned columns
(`best_match_end m q blen` is `scan_bottom_row m q blen blen`), used to state
the scan's characterization. -/
def scan_bottom_row (m : SearchMatrix) (query_len e0 n : Nat) : Nat × Nat :=
  (List.range' 1 n).foldl
    (fun best col =>
      let cost := (m.get query_len col).cost
      if cost < best.1 then (cost, col) else best)
    (U32_MAX, e0)

/-- The traceback loop of `EditAgent::resolve_location`
(`while query_ix > 0 && buffer_ix > 0`), with an explicit fuel that the
caller makes large enough (each iteration shrinks `query_ix + buffer_ix`).
Returns the final `buffer_ix`. -/
def trace_back (m : SearchMatrix) : Nat → Nat → Nat → Nat
  | 0, _, buffer_ix => buffer_ix
  | _ + 1, 0, buffer_ix => buffer_ix
  | fuel + 1, query_ix + 1, buffer_ix =>
    if buffer_ix = 0 then buffer_ix
    else
      match (m.get (query_ix + 1) buffer_ix).direction with
      | SearchDirection.Diagonal => trace_back m fuel query_ix (buffer_ix - 1)
      | SearchDirection.Up => trace_back m fuel query_ix buffer_ix
      | SearchDirection.Left => trace_back m fuel (query_ix + 1) (buffer_ix - 1)

/-! ## Document snapshot operations (external collaborator; spec §1, §3, §6).
The snapshot is a byte sequence; `Point` is a (row, column) position with
byte-valued columns. -/

structure Point where
  row : Nat
  column : Nat
deriving DecidableEq

/-- A UTF-8 continuation byte (`0x80..0xBF`). -/
def is_continuation_byte (b : Nat) : Bool := 128 ≤ b && b < 192

/-- Modelled from the spec: the snapshot's char-boundary test used by
`clip_offset` (offsets 0 and `len` are boundaries; otherwise the byte at the
offset must not be a continuation byte). -/
def is_char_boundary (buffer : List Nat) (offset : Nat) : Bool :=
  offset == 0 || offset == buffer.length ||
    !(is_continuation_byte (buffer.getD offset 0))

def clip_left_go (buffer : List Nat) : Nat → Nat
  | 0 => 0
  | o + 1 => if is_char_boundary buffer (o + 1) then o + 1 else clip_left_go buffer o

/-- Modelled from the spec: `BufferSnapshot::clip_offset(_, Bias::Left)` —
the nearest char boundary at or before the offset. -/
def clip_offset_left (buffer : List Nat) (offset : Nat) : Nat :=
  clip_left_go buffer (min offset buffer.length)

def clip_right_go (buffer : List Nat) : Nat → Nat → Nat
  | 0, o => o
  | fuel + 1, o => if is_char_boundary buffer o then o else clip_right_go buffer fuel (o + 1)

/-- Modelled from the spec: `BufferSnapshot::clip_offset(_, Bias::Right)` —
the nearest char boundary at or after the offset. -/
def clip_offset_right (buffer : List Nat) (offset : Nat) : Nat :=
  clip_right_go buffer (buffer.length - min offset buffer.length) (min offset buffer.length)

/-- Modelled from the spec: `BufferSnapshot::offset_to_point` — row is the
number of newline bytes before the offset, column the byte count since the
last newline. -/
def offset_to_point (buffer : List Nat) (offset : Nat) : Point :=
  ⟨(buffer.take offset).count 10,
    ((buffer.take offset).reverse.takeWhile (fun b => !(b == 10))).length⟩

/-- Split a byte sequence into its lines (newline bytes are separators; a
trailing newline yields a final empty line). -/
def split_into_lines : List Nat → List (List Nat)
  | [] => [[]]
  | b :: rest =>
    if b == 10 then [] :: split_into_lines rest
    else
      match split_into_lines rest with
      | [] => [[b]]
      | line :: lines => (b :: line) :: lines

/-- Modelled from the spec: `BufferSnapshot::line_len` — the byte length of
the given row, excluding its newline. -/
def line_len (buffer : List Nat) (row : Nat) : Nat :=
  ((split_into_lines buffer).getD row []).length

/-- `EditAgent::resolve_location`: fill the alignment matrix, scan the bottom
row for the best match end, trace back to the match start, and snap the byte
range outward to whole lines. Anchors are modelled by the two snapped
points. -/
def resolve_location (buffer search_query : List Nat) : Point × Point :=
  let buffer_len := buffer.length
  let query_len := search_query.length
  let matrix := search_matrix search_query buffer
  let best_buffer_end := (best_match_end matrix query_len buffer_len).2
  let buffer_ix := trace_back matrix (query_len + best_buffer_end) query_len best_buffer_end
  let start0 := offset_to_point buffer (clip_offset_left buffer buffer_ix)
  let start := Point.mk start0.row 0
  let end0 := offset_to_point buffer (clip_offset_right buffer best_buffer_end)
  let endp :=
    if end0.column > 0 then Point.mk end0.row (line_len buffer end0.row) else end0
  (start, endp)

/-! ## UTF-8 byte encoding of strings (environment model) -/

/-- Standard UTF-8 encoding of one character, as byte values. -/
def encode_utf8_char (c : Char) : List Nat :=
  let v := c.toNat
  if v < 128 then [v]
  else if v < 2048 then [192 + v / 64, 128 + v % 64]
  else if v < 65536 then [224 + v / 4096, 128 + (v / 64) % 64, 128 + v % 64]
  else [240 + v / 262144, 128 + (v / 4096) % 64, 128 + (v / 64) % 64, 128 + v % 64]

/-- The UTF-8 bytes of a string. -/
def utf8_bytes (s : String) : List Nat := (s.data.map encode_utf8_char).flatten

/-! ## Specification-side definitions (for refinement comparison) -/

/-- Spec §4.3/§8, stated in the spec's words: the `[start, end)` byte range
snapped outward to whole lines — start's column forced to 0, end forced to
the end of its line when its column is nonzero. -/
def line_snapped_range (buffer : List Nat) (start_offset end_offset : Nat) : Point × Point :=
  let sp := offset_to_point buffer start_offset
  let ep := offset_to_point buffer end_offset
  (Point.mk sp.row 0,
    if ep.column > 0 then Point.mk ep.row (line_len buffer ep.row) else ep)

/-- The query bytes occur in the document bytes starting at offset `i`. -/
def byte_match_at (document query : List Nat) (i : Nat) : Prop :=
  i + query.length ≤ document.length ∧
    ∀ j, j < query.length → query.getD j 0 = document.getD (i + j) 0

instance (document query : List Nat) (i : Nat) : Decidable (byte_match_at document query i) := by
  unfold byte_match_at
  infer_instance

/-- The reference recurrence of the alignment matrix, written as a recursive
function of the cell coordinates (row 0 is free; column 0 carries the leading
deletion cost; interior cells take the up/left/diagonal minimum). Used to
reason about the imperative fill. -/
def leading_cost (query : List Nat) : Nat → Nat
  | 0 => 0
  | r + 1 => saturating_add (leading_cost query r) (deletion_cost_of (query.getD r 0))

def cell (query buffer : List Nat) : Nat → Nat → SearchState
  | 0, _ => SearchState.new 0 SearchDirection.Diagonal
  | r + 1, 0 => SearchState.new (leading_cost query (r + 1)) SearchDirection.Diagonal
  | r + 1, c + 1 =>
    let query_byte := query.getD r 0
    let buffer_byte := buffer.getD c 0
    let deletion_cost := deletion_cost_of query_byte
    let insertion_cost := insertion_cost_of buffer_byte
    let up := SearchState.new
      (saturating_add (cell query buffer r (c + 1)).cost deletion_cost) SearchDirection.Up
    let left := SearchState.new
      (saturating_add (cell query buffer (r + 1) c).cost insertion_cost) SearchDirection.Left
    let diagonal := SearchState.new
      (if query_byte == buffer_byte then (cell query buffer r c).cost
       else saturating_add (cell query buffer r c).cost (deletion_cost + insertion_cost))
      SearchDirection.Diagonal
    (up.min left).min diagonal
termination_by r c => (r, c)

/-! ## Streaming Edit Block Parser.
Modelled from the spec: `edit_parser.rs` is not part of the provided sources
(only its consumer `EditAgent::interpret` is), so the parser is modelled from
spec §4.2 — a single mutable instance that buffers an incomplete trailing
line between `push` calls and scans complete lines for the block delimiters,
emitting an `EditBlock` as soon as a block's delimiters have fully closed. -/

structure EditBlock where
  old_text : String
  new_text : String
deriving DecidableEq

inductive EditParserMode
  | pending
  | withinOldText
  | afterOldText
  | withinNewText
deriving DecidableEq

structure EditParserState where
  buffer : List Char
  mode : EditParserMode
  old_lines : List (List Char)
  new_lines : List (List Char)
deriving DecidableEq

def edit_parser_start : EditParserState := ⟨[], EditParserMode.pending, [], []⟩

def old_text_open : List Char := "<old_text>".data
def old_text_close : List Char := "</old_text>".data
def new_text_open : List Char := "<new_text>".data
def new_text_close : List Char := "</new_text>".data

def newline_char : Char := Char.ofNat 10

def join_block_lines (lines : List (List Char)) : String :=
  String.mk (List.intercalate [newline_char] lines)

/-- Modelled from the spec: handle one complete line of the stream. -/
def handle_parsed_line (st : EditParserState) (line : List Char) :
    EditParserState × List EditBlock :=
  match st.mode with
  | EditParserMode.pending =>
    if line = old_text_open then
      ({ st with mode := EditParserMode.withinOldText, old_lines := [], new_lines := [] }, [])
    else (st, [])
  | EditParserMode.withinOldText =>
    if line = old_text_close then ({ st with mode := EditParserMode.afterOldText }, [])
    else ({ st with old_lines := st.old_lines ++ [line] }, [])
  | EditParserMode.afterOldText =>
    if line = new_text_open then ({ st with mode := EditParserMode.withinNewText }, [])
    else (st, [])
  | EditParserMode.withinNewText =>
    if line = new_text_close then
      ({ st with mode := EditParserMode.pending },
        [⟨join_block_lines st.old_lines, join_block_lines st.new_lines⟩])
    else ({ st with new_lines := st.new_lines ++ [line] }, [])

/-- One step of line-splitting: a newline closes the current partial line. -/
def split_chunk_step (acc : List (List Char) × List Char) (c : Char) :
    List (List Char) × List Char :=
  if c = newline_char then (acc.1 ++ [acc.2], []) else (acc.1, acc.2 ++ [c])

/-- Split a pending partial line plus a new chunk into the complete lines and
the remaining partial line. -/
def split_complete_lines (buffer chunk : List Char) :
    List (List Char) × List Char :=
  chunk.foldl split_chunk_step ([], buffer)

/-- Scan a sequence of complete lines, collecting emitted blocks in order. -/
def process_lines (st : EditParserState) (lines : List (List Char)) :
    EditParserState × List EditBlock :=
  lines.foldl
    (fun (acc : EditParserState × List EditBlock) line =>
      let r := handle_parsed_line acc.1 line
      (r.1, acc.2 ++ r.2))
    (st, [])

/-- Modelled from the spec: `EditParser::push` — append the chunk to the
buffered partial line, scan the now-complete lines, and return the blocks
that closed during this call. -/
def push_chunk (st : EditParserState) (chunk : List Char) :
    EditParserState × List EditBlock :=
  let split := split_complete_lines st.buffer chunk
  let processed := process_lines st split.1
  ({ processed.1 with buffer := split.2 }, processed.2)

/-- Feed a sequence of chunks to one parser instance, collecting all emitted
blocks in order. -/
def push_all (st : EditParserState) (chunks : List (List Char)) :
    EditParserState × List EditBlock :=
  chunks.foldl
    (fun acc chunk =>
      let r := push_chunk acc.1 chunk
      (r.1, acc.2 ++ r.2))
    (st, [])

/-! ## Helper lemmas: lists -/

theorem getD_set_self {α : Type} : ∀ (l : List α) (i : Nat) (v d : α), i < l.length →
    (l.set i v).getD i d = v
  | [], i, v, d, h => absurd h (by simp)
  | _ :: _, 0, v, d, _ => rfl
  | a :: l, i + 1, v, d, h => by
    have ih := getD_set_self l i v d (by simpa using h)
    simpa [List.set, List.getD_cons_succ] using ih

theorem getD_set_other {α : Type} : ∀ (l : List α) (i j : Nat) (v d : α), i ≠ j →
    (l.set i v).getD j d = l.getD j d
  | [], _, _, _, _, _ => rfl
  | _ :: _, 0, 0, _, _, h => absurd rfl h
  | _ :: _, 0, _ + 1, _, _, _ => rfl
  | _ :: _, _ + 1, 0, _, _, _ => rfl
  | a :: l, i + 1, j + 1, v, d, h => by
    have ih := getD_set_other l i j v d (fun he => h (by rw [he]))
    simpa [List.set, List.getD_cons_succ] using ih

theorem getD_replicate_self {α : Type} : ∀ (n i : Nat) (v : α),
    (List.replicate n v).getD i v = v
  | 0, 0, _ => rfl
  | 0, _ + 1, _ => rfl
  | _ + 1, 0, _ => rfl
  | n + 1, i + 1, v => by
    simp only [List.replicate, List.getD_cons_succ]
    exact getD_replicate_self n i v

theorem getD_append_left {α : Type} : ∀ (a b : List α) (i : Nat) (d : α), i < a.length →
    (a ++ b).getD i d = a.getD i d
  | [], _, i, _, h => absurd h (by simp)
  | _ :: _, _, 0, _, _ => rfl
  | x :: a, b, i + 1, d, h => by
    have ih := getD_append_left a b i d (by simpa using h)
    simpa [List.getD_cons_succ] using ih

theorem getD_append_right {α : Type} : ∀ (a b : List α) (j : Nat) (d : α),
    (a ++ b).getD (a.length + j) d = b.getD j d
  | [], _, _, _ => by simp
  | x :: a, b, j, d => by
    have ih := getD_append_right a b j d
    simpa [List.getD_cons_succ, Nat.succ_add] using ih

/-! ## Helper lemmas: message history manipulation -/

theorem update_last_concat (f : AgentMessage → AgentMessage) :
    ∀ (xs : List AgentMessage) (m : AgentMessage),
      update_last f (xs ++ [m]) = xs ++ [f m]
  | [], m => rfl
  | x :: xs, m => by
    cases xs with
    | nil => rfl
    | cons y ys =>
      have ih := update_last_concat f (y :: ys) m
      show x :: update_last f ((y :: ys) ++ [m]) = x :: ((y :: ys) ++ [f m])
      rw [ih]

theorem last_assistant_of_no_assistant (messages : List AgentMessage)
    (h : ∀ m, messages.getLast? = some m → m.role ≠ Role.assistant) :
    last_assistant_message messages = messages ++ [⟨Role.assistant, []⟩] := by
  unfold last_assistant_message
  cases hl : messages.getLast? with
  | none => rfl
  | some m =>
    show (if m.role = Role.assistant then messages
      else messages ++ [⟨Role.assistant, []⟩]) = messages ++ [⟨Role.assistant, []⟩]
    rw [if_neg (h m hl)]

theorem last_assistant_ne_nil (messages : List AgentMessage) :
    last_assistant_message messages ≠ [] := by
  unfold last_assistant_message
  cases hl : messages.getLast? with
  | none => simp
  | some m =>
    show (if m.role = Role.assistant then messages
      else messages ++ [⟨Role.assistant, []⟩]) ≠ []
    split
    · intro hc
      rw [hc] at hl
      simp at hl
    · simp

theorem all_content_parts_update_last (p : MessageContent) :
    ∀ (msgs : List AgentMessage), msgs ≠ [] →
      all_content_parts (update_last (fun m => ⟨m.role, m.content ++ [p]⟩) msgs) =
        all_content_parts msgs ++ [p]
  | [], h => absurd rfl h
  | [m], _ => by simp [update_last, all_content_parts]
  | m :: x :: xs, _ => by
    have ih := all_content_parts_update_last p (x :: xs) (by simp)
    simp only [update_last, all_content_parts, List.map_cons, List.flatten_cons] at ih ⊢
    rw [ih]
    simp [List.append_assoc]

theorem all_content_parts_last_assistant (messages : List AgentMessage) :
    all_content_parts (last_assistant_message messages) = all_content_parts messages := by
  unfold last_assistant_message
  cases hl : messages.getLast? with
  | none => simp [all_content_parts]
  | some m =>
    show all_content_parts (if m.role = Role.assistant then messages
      else messages ++ [⟨Role.assistant, []⟩]) = all_content_parts messages
    split
    · rfl
    · simp [all_content_parts]

theorem all_content_parts_push (messages : List AgentMessage) (p : MessageContent) :
    all_content_parts
        (update_last (fun m => ⟨m.role, m.content ++ [p]⟩) (last_assistant_message messages)) =
      all_content_parts messages ++ [p] := by
  rw [all_content_parts_update_last p (last_assistant_message messages)
      (last_assistant_ne_nil messages),
    all_content_parts_last_assistant]

theorem handle_tool_use_event_fst (tools : ToolRegistry) (messages : List AgentMessage)
    (tu : LanguageModelToolUse) :
    (handle_tool_use_event tools messages tu).1 =
      update_last (fun m => ⟨m.role, m.content ++ [MessageContent.toolUse tu]⟩)
        (last_assistant_message messages) := by
  unfold handle_tool_use_event
  cases htu : tu.is_input_complete with
  | false => rfl
  | true =>
    cases List.lookup tu.name tools with
    | some tool => rfl
    | none => rfl

theorem handle_tool_use_event_isSome (tools : ToolRegistry) (messages : List AgentMessage)
    (tu : LanguageModelToolUse) :
    (handle_tool_use_event tools messages tu).2.isSome = tu.is_input_complete := by
  unfold handle_tool_use_event
  cases htu : tu.is_input_complete with
  | false => rfl
  | true =>
    cases List.lookup tu.name tools with
    | some tool => rfl
    | none => rfl

/-! ## Claim theorems: stop reasons, partial tool uses, assistant targeting -/

/-- Claim C2. The claim is right and the code is wrong: `EndTurn` and
`ToolUse` are benign end-of-round signals, but `MaxTokens` — the only other
stop reason — hits `todo!()` in `Agent::handle_stop_event` and panics,
aborting the turn task instead of surfacing a named error to the caller
(panic modelled by the `none`/`panicked := true` outcomes). -/
theorem claim_c2_stop_reason :
    handle_stop_event StopReason.endTurn = some () ∧
    handle_stop_event StopReason.toolUse = some () ∧
    handle_stop_event StopReason.maxTokens = none ∧
    (∀ (tools : ToolRegistry) (messages : List AgentMessage),
      process_stream_events tools messages
          [Except.ok (LanguageModelCompletionEvent.stop StopReason.maxTokens)] =
        ⟨messages, [Except.ok (LanguageModelCompletionEvent.stop StopReason.maxTokens)],
          [], true⟩) :=
  ⟨rfl, rfl, rfl, fun _ _ => rfl⟩

/-- Claim C3, counterexample: a `ToolUse` event whose input is not yet
complete is *not* appended as a content part — `Agent::handle_response_event`
only calls `handle_tool_use_event` when `is_input_complete` is set, so the
history is left untouched (here: still empty). -/
theorem claim_c3_counterexample :
    handle_response_event [] []
        (LanguageModelCompletionEvent.toolUse ⟨"1", "edit", "x", false⟩) =
      some ([], none) := rfl

/-- Claim C3, amended: a `ToolUse` event is appended as a content part of the
current assistant message — and queues a tool-execution task — exactly when
it is marked `input_complete`; partial deltas are forwarded on the event
channel but neither appended nor executed. -/
theorem claim_c3_amended (tools : ToolRegistry) (messages : List AgentMessage)
    (tu : LanguageModelToolUse) :
    ∃ m q,
      handle_response_event tools messages (LanguageModelCompletionEvent.toolUse tu) =
          some (m, q) ∧
        all_content_parts m =
          all_content_parts messages ++
            (if tu.is_input_complete then [MessageContent.toolUse tu] else []) ∧
        q.isSome = tu.is_input_complete := by
  cases htu : tu.is_input_complete with
  | false =>
    refine ⟨messages, none, ?_, by simp, rfl⟩
    simp [handle_response_event, htu]
  | true =>
    refine ⟨(handle_tool_use_event tools messages tu).1,
      (handle_tool_use_event tools messages tu).2, ?_, ?_, ?_⟩
    · simp [handle_response_event, htu]
    · rw [handle_tool_use_event_fst]
      simp [all_content_parts_push]
    · rw [handle_tool_use_event_isSome, htu]

/-- Claim C10: whenever streamed text or a tool use is recorded and the
history is empty or does not end in an assistant message, a fresh empty
assistant message is appended first (`Agent::last_assistant_message`), so the
new content part lands on an assistant message, never on a user or system
message. -/
theorem claim_c10_assistant_append (tools : ToolRegistry) (messages : List AgentMessage)
    (s : String) (tu : LanguageModelToolUse)
    (h : ∀ m, messages.getLast? = some m → m.role ≠ Role.assistant) :
    last_assistant_message messages = messages ++ [⟨Role.assistant, []⟩] ∧
    handle_text_event messages s =
      messages ++ [⟨Role.assistant, [MessageContent.text s]⟩] ∧
    (handle_tool_use_event tools messages tu).1 =
      messages ++ [⟨Role.assistant, [MessageContent.toolUse tu]⟩] := by
  have hl := last_assistant_of_no_assistant messages h
  refine ⟨hl, ?_, ?_⟩
  · unfold handle_text_event
    rw [hl, update_last_concat]
    rfl
  · rw [handle_tool_use_event_fst, hl, update_last_concat]
    rfl

/-- Witness for C10 at a concrete input. -/
theorem claim_c10_assistant_append_witness :
    last_assistant_message [⟨Role.user, []⟩] =
        [⟨Role.user, []⟩] ++ [⟨Role.assistant, []⟩] ∧
    handle_text_event [⟨Role.user, []⟩] ("hi") =
      [⟨Role.user, []⟩] ++ [⟨Role.assistant, [MessageContent.text ("hi")]⟩] ∧
    (handle_tool_use_event [] [⟨Role.user, []⟩] ⟨"1", "t", "x", false⟩).1 =
      [⟨Role.user, []⟩] ++
        [⟨Role.assistant, [MessageContent.toolUse ⟨"1", "t", "x", false⟩]⟩] :=
  claim_c10_assistant_append [] [⟨Role.user, []⟩] ("hi") ⟨"1", "t", "x", false⟩
    (fun m hm => by
      cases hm
      decide)

/-! ## Helper lemmas: stream processing and tool fan-in -/

theorem isEmpty_false_of_ne_nil {α : Type} {l : List α} (h : l ≠ []) : l.isEmpty = false := by
  cases l with
  | nil => exact absurd rfl h
  | cons a l => rfl

theorem get?_none_of_le {α : Type} : ∀ (l : List α) (n : Nat), l.length ≤ n → l.get? n = none
  | [], _, _ => rfl
  | _ :: _, 0, h => by simp at h
  | a :: l, n + 1, h => get?_none_of_le l n (by simpa using h)

theorem process_stream_events_ok_append (tools : ToolRegistry) :
    ∀ (evs : List LanguageModelCompletionEvent) (messages : List AgentMessage)
      (tail : List (Except String LanguageModelCompletionEvent)),
      (process_stream_events tools messages (evs.map Except.ok)).panicked = false →
      process_stream_events tools messages (evs.map Except.ok ++ tail) =
        ⟨(process_stream_events tools
            (process_stream_events tools messages (evs.map Except.ok)).messages tail).messages,
          (process_stream_events tools messages (evs.map Except.ok)).emitted ++
            (process_stream_events tools
              (process_stream_events tools messages (evs.map Except.ok)).messages tail).emitted,
          (process_stream_events tools messages (evs.map Except.ok)).queued ++
            (process_stream_events tools
              (process_stream_events tools messages (evs.map Except.ok)).messages tail).queued,
          (process_stream_events tools
            (process_stream_events tools messages (evs.map Except.ok)).messages tail).panicked⟩
  | [], messages, tail, _ => by simp [process_stream_events]
  | ev :: evs, messages, tail, h => by
    simp only [List.map_cons, List.cons_append]
    cases hre : handle_response_event tools messages ev with
    | none =>
      simp [process_stream_events, hre] at h
    | some pr =>
      obtain ⟨m', q1⟩ := pr
      have hp : (process_stream_events tools m' (evs.map Except.ok)).panicked = false := by
        simpa [process_stream_events, hre] using h
      have ih := process_stream_events_ok_append tools evs m' tail hp
      simp only [process_stream_events, hre]
      rw [ih]
      simp [List.append_assoc]

theorem process_stream_events_error (tools : ToolRegistry) (messages : List AgentMessage)
    (e : String) (rest : List (Except String LanguageModelCompletionEvent)) :
    process_stream_events tools messages (Except.error e :: rest) =
      ⟨messages, [Except.error e], [], false⟩ := rfl

/-! ## Claim theorems: transport errors (C1) -/

/-- Claim C1, counterexample: a completed tool use arrives, then the model
stream yields a transport error. The error is forwarded, but the queued tool
call is still executed (its result is appended as a user message) and a
second completion request is issued (`requests = 2`), so the turn does not
end immediately at the error. -/
theorem claim_c1_counterexample :
    run_turn [("echo", fun _ => Except.ok ("out"))] []
      [[Except.ok (LanguageModelCompletionEvent.toolUse ⟨"1", "echo", "i", true⟩),
        Except.error ("boom"),
        Except.ok (LanguageModelCompletionEvent.stop StopReason.endTurn)],
       [Except.ok (LanguageModelCompletionEvent.stop StopReason.endTurn)]]
      [[0], []] =
      ⟨[⟨Role.assistant, [MessageContent.toolUse ⟨"1", "echo", "i", true⟩]⟩,
        ⟨Role.user, [MessageContent.toolResult ⟨"1", "echo", false, "out"⟩]⟩],
       [Except.ok (LanguageModelCompletionEvent.toolUse ⟨"1", "echo", "i", true⟩),
        Except.error ("boom"),
        Except.ok (LanguageModelCompletionEvent.stop StopReason.endTurn)],
       2, false⟩ := rfl

/-- Claim C1, amended: a transport error is forwarded verbatim on the event
channel and immediately ends the current *streaming round* (events after it
are not consumed); the *turn* ends there only when no tool calls were queued
before the error — otherwise the queued tool calls still run and a further
completion request is issued. -/
theorem claim_c1_amended (tools : ToolRegistry) (messages : List AgentMessage)
    (evs : List LanguageModelCompletionEvent) (e : String)
    (rest : List (Except String LanguageModelCompletionEvent))
    (more : List (List (Except String LanguageModelCompletionEvent)))
    (orders : List (List Nat))
    (h : (process_stream_events tools messages (evs.map Except.ok)).panicked = false) :
    process_stream_events tools messages (evs.map Except.ok ++ Except.error e :: rest) =
      ⟨(process_stream_events tools messages (evs.map Except.ok)).messages,
        (process_stream_events tools messages (evs.map Except.ok)).emitted ++ [Except.error e],
        (process_stream_events tools messages (evs.map Except.ok)).queued, false⟩ ∧
    ((process_stream_events tools messages (evs.map Except.ok)).queued = [] →
      run_turn tools messages ((evs.map Except.ok ++ Except.error e :: rest) :: more) orders =
        ⟨(process_stream_events tools messages (evs.map Except.ok)).messages,
          (process_stream_events tools messages (evs.map Except.ok)).emitted ++ [Except.error e],
          1, false⟩) := by
  have hfull := process_stream_events_ok_append tools evs messages (Except.error e :: rest) h
  rw [process_stream_events_error] at hfull
  have hfull' : process_stream_events tools messages
      (evs.map Except.ok ++ Except.error e :: rest) =
      ⟨(process_stream_events tools messages (evs.map Except.ok)).messages,
        (process_stream_events tools messages (evs.map Except.ok)).emitted ++ [Except.error e],
        (process_stream_events tools messages (evs.map Except.ok)).queued, false⟩ := by
    rw [hfull]
    simp
  refine ⟨hfull', ?_⟩
  intro hq
  simp only [run_turn, run_round, hfull', hq]
  simp

/-- Witness for the amended C1 at a concrete input: with nothing queued
before the error, the error is forwarded and the turn ends after one
request. -/
theorem claim_c1_amended_witness :
    process_stream_events [] [] [Except.error ("boom")] =
      ⟨[], [Except.error ("boom")], [], false⟩ ∧
    run_turn [] [] [[Except.error ("boom")]] [] =
      ⟨[], [Except.error ("boom")], 1, false⟩ :=
  ⟨(claim_c1_amended [] [] [] ("boom") [] [] [] rfl).1,
    (claim_c1_amended [] [] [] ("boom") [] [] [] rfl).2 rfl⟩

/-! ## Helper lemmas: join_all -/

theorem foldl_set_length (tasks : List LanguageModelToolResult) :
    ∀ (order : List Nat) (slots : List (Option LanguageModelToolResult)),
      (order.foldl (fun slots i => slots.set i tasks[i]?) slots).length = slots.length
  | [], _ => rfl
  | i :: order, slots => by
    simpa [List.length_set] using
      foldl_set_length tasks order (slots.set i tasks[i]?)

theorem foldl_set_getElem? (tasks : List LanguageModelToolResult) :
    ∀ (order : List Nat) (slots : List (Option LanguageModelToolResult)) (j : Nat),
      j < slots.length →
      (order.foldl (fun slots i => slots.set i tasks[i]?) slots)[j]? =
        if j ∈ order then some tasks[j]? else slots[j]?
  | [], slots, j, _ => by simp
  | i :: order, slots, j, hj => by
    have hj' : j < (slots.set i tasks[i]?).length := by
      rw [List.length_set]
      exact hj
    simp only [List.foldl_cons]
    rw [foldl_set_getElem? tasks order (slots.set i tasks[i]?) j hj']
    by_cases hmem : j ∈ order
    · simp [hmem]
    · by_cases hij : j = i
      · subst hij
        simp [hmem, List.getElem?_set_self hj]
      · simp [hmem, hij, List.getElem?_set_ne (fun he => hij he.symm)]

theorem join_all_perm (tasks : List LanguageModelToolResult) (order : List Nat)
    (h : order.Perm (List.range tasks.length)) :
    join_all tasks order = tasks.map some := by
  unfold join_all
  apply List.ext_getElem?
  intro j
  by_cases hj : j < tasks.length
  · rw [foldl_set_getElem? tasks order (List.replicate tasks.length none) j
        (by
          rw [List.length_replicate]
          exact hj)]
    have hmem : j ∈ order := h.mem_iff.mpr (List.mem_range.mpr hj)
    rw [if_pos hmem, List.getElem?_map]
    simp [List.getElem?_eq_getElem hj]
  · have h1 : (order.foldl (fun slots i => slots.set i tasks[i]?)
        (List.replicate tasks.length none))[j]? = none := by
      apply List.getElem?_eq_none
      rw [foldl_set_length, List.length_replicate]
      omega
    have h2 : (tasks.map some)[j]? = none := by
      apply List.getElem?_eq_none
      rw [List.length_map]
      omega
    rw [h1, h2]

theorem reduceOption_map_some {α : Type} : ∀ (l : List α), (l.map some).reduceOption = l
  | [] => rfl
  | a :: l => by
    simpa [List.reduceOption_cons_of_some] using reduceOption_map_some l

/-! ## Claim theorems: tool fan-in ordering (C5) and unknown tools (C8) -/

/-- Claim C5: in any round that queued at least one tool call, the engine
joins *all* queued tool tasks (the completion order must cover every task),
then appends exactly one new `User` message whose tool-result parts are in
invocation order — for *every* completion order of the tasks. -/
theorem claim_c5_tool_fan_in (tools : ToolRegistry) (messages : List AgentMessage)
    (events : List (Except String LanguageModelCompletionEvent)) (order : List Nat)
    (h1 : (process_stream_events tools messages events).panicked = false)
    (h2 : (process_stream_events tools messages events).queued ≠ [])
    (h3 : order.Perm (List.range (process_stream_events tools messages events).queued.length)) :
    run_round tools messages events order =
      ⟨(process_stream_events tools messages events).messages ++
          [⟨Role.user,
            ((process_stream_events tools messages events).queued).map MessageContent.toolResult⟩],
        (process_stream_events tools messages events).emitted, false, false⟩ := by
  simp only [run_round]
  rw [join_all_perm _ _ h3, reduceOption_map_some]
  simp [h1, isEmpty_false_of_ne_nil h2]

/-- Witness for C5: tools invoked in order `[A, B, C]` completing in order
`[C, A, B]` (completion order `[2, 0, 1]`) still produce one user message
with results in invocation order `[A, B, C]`. -/
theorem claim_c5_tool_fan_in_witness :
    (process_stream_events [] []
        [Except.ok (LanguageModelCompletionEvent.toolUse ⟨"a", "A", "x", true⟩),
         Except.ok (LanguageModelCompletionEvent.toolUse ⟨"b", "B", "x", true⟩),
         Except.ok (LanguageModelCompletionEvent.toolUse ⟨"c", "C", "x", true⟩),
         Except.ok (LanguageModelCompletionEvent.stop StopReason.toolUse)]).panicked = false ∧
    (process_stream_events [] []
        [Except.ok (LanguageModelCompletionEvent.toolUse ⟨"a", "A", "x", true⟩),
         Except.ok (LanguageModelCompletionEvent.toolUse ⟨"b", "B", "x", true⟩),
         Except.ok (LanguageModelCompletionEvent.toolUse ⟨"c", "C", "x", true⟩),
         Except.ok (LanguageModelCompletionEvent.stop StopReason.toolUse)]).queued ≠ [] ∧
    ([2, 0, 1] : List Nat).Perm (List.range (process_stream_events [] []
        [Except.ok (LanguageModelCompletionEvent.toolUse ⟨"a", "A", "x", true⟩),
         Except.ok (LanguageModelCompletionEvent.toolUse ⟨"b", "B", "x", true⟩),
         Except.ok (LanguageModelCompletionEvent.toolUse ⟨"c", "C", "x", true⟩),
         Except.ok (LanguageModelCompletionEvent.stop StopReason.toolUse)]).queued.length) ∧
    run_round [] []
        [Except.ok (LanguageModelCompletionEvent.toolUse ⟨"a", "A", "x", true⟩),
         Except.ok (LanguageModelCompletionEvent.toolUse ⟨"b", "B", "x", true⟩),
         Except.ok (LanguageModelCompletionEvent.toolUse ⟨"c", "C", "x", true⟩),
         Except.ok (LanguageModelCompletionEvent.stop StopReason.toolUse)]
        [2, 0, 1] =
      ⟨[⟨Role.assistant,
          [MessageContent.toolUse ⟨"a", "A", "x", true⟩,
           MessageContent.toolUse ⟨"b", "B", "x", true⟩,
           MessageContent.toolUse ⟨"c", "C", "x", true⟩]⟩,
        ⟨Role.user,
          [MessageContent.toolResult ⟨"a", "A", true, "No tool named A exists"⟩,
           MessageContent.toolResult ⟨"b", "B", true, "No tool named B exists"⟩,
           MessageContent.toolResult ⟨"c", "C", true, "No tool named C exists"⟩]⟩],
       [Except.ok (LanguageModelCompletionEvent.toolUse ⟨"a", "A", "x", true⟩),
        Except.ok (LanguageModelCompletionEvent.toolUse ⟨"b", "B", "x", true⟩),
        Except.ok (LanguageModelCompletionEvent.toolUse ⟨"c", "C", "x", true⟩),
        Except.ok (LanguageModelCompletionEvent.stop StopReason.toolUse)],
       false, false⟩ :=
  ⟨rfl, by decide, by decide,
    claim_c5_tool_fan_in [] []
      [Except.ok (LanguageModelCompletionEvent.toolUse ⟨"a", "A", "x", true⟩),
       Except.ok (LanguageModelCompletionEvent.toolUse ⟨"b", "B", "x", true⟩),
       Except.ok (LanguageModelCompletionEvent.toolUse ⟨"c", "C", "x", true⟩),
       Except.ok (LanguageModelCompletionEvent.stop StopReason.toolUse)]
      [2, 0, 1] rfl (by decide) (by decide)⟩

/-- Claim C8: a completed tool use naming an unregistered tool resolves to an
error-tagged result with content exactly `"No tool named <name> exists"`, and
the turn continues with a second completion request instead of aborting. -/
theorem claim_c8_unknown_tool (tools : ToolRegistry) (id name inp : String)
    (h : List.lookup name tools = none) :
    run_turn tools []
      [[Except.ok (LanguageModelCompletionEvent.toolUse ⟨id, name, inp, true⟩),
        Except.ok (LanguageModelCompletionEvent.stop StopReason.toolUse)],
       [Except.ok (LanguageModelCompletionEvent.stop StopReason.endTurn)]]
      [[0], []] =
      ⟨[⟨Role.assistant, [MessageContent.toolUse ⟨id, name, inp, true⟩]⟩,
        ⟨Role.user,
          [MessageContent.toolResult
            ⟨id, name, true, "No tool named " ++ name ++ " exists"⟩]⟩],
       [Except.ok (LanguageModelCompletionEvent.toolUse ⟨id, name, inp, true⟩),
        Except.ok (LanguageModelCompletionEvent.stop StopReason.toolUse),
        Except.ok (LanguageModelCompletionEvent.stop StopReason.endTurn)],
       2, false⟩ := by
  simp [run_turn, run_round, process_stream_events, handle_response_event,
    handle_tool_use_event, handle_stop_event, last_assistant_message, update_last, h,
    join_all, List.reduceOption]

/-- Witness for C8 at a concrete unregistered tool name. -/
theorem claim_c8_unknown_tool_witness :
    List.lookup ("frobnicate") ([] : ToolRegistry) = none ∧
    run_turn [] []
      [[Except.ok (LanguageModelCompletionEvent.toolUse ⟨"1", "frobnicate", "x", true⟩),
        Except.ok (LanguageModelCompletionEvent.stop StopReason.toolUse)],
       [Except.ok (LanguageModelCompletionEvent.stop StopReason.endTurn)]]
      [[0], []] =
      ⟨[⟨Role.assistant, [MessageContent.toolUse ⟨"1", "frobnicate", "x", true⟩]⟩,
        ⟨Role.user,
          [MessageContent.toolResult
            ⟨"1", "frobnicate", true, "No tool named " ++ "frobnicate" ++ " exists"⟩]⟩],
       [Except.ok (LanguageModelCompletionEvent.toolUse ⟨"1", "frobnicate", "x", true⟩),
        Except.ok (LanguageModelCompletionEvent.stop StopReason.toolUse),
        Except.ok (LanguageModelCompletionEvent.stop StopReason.endTurn)],
       2, false⟩ :=
  ⟨rfl, claim_c8_unknown_tool [] ("1") ("frobnicate") ("x") rfl⟩

/-! ## Helper lemmas: streaming parser chunk invariance -/

theorem foldl_acc_shift {σ α β : Type} (f : σ × List β → α → σ × List β)
    (g : σ → α → σ × List β)
    (hf : ∀ p x, f p x = ((g p.1 x).1, p.2 ++ (g p.1 x).2)) :
    ∀ (l : List α) (s : σ) (acc : List β),
      l.foldl f (s, acc) = ((l.foldl f (s, [])).1, acc ++ (l.foldl f (s, [])).2)
  | [], s, acc => by simp
  | x :: l, s, acc => by
    simp only [List.foldl_cons, hf]
    rw [foldl_acc_shift f g hf l (g s x).1 (acc ++ (g s x).2),
      foldl_acc_shift f g hf l (g s x).1 ([] ++ (g s x).2)]
    simp [List.append_assoc]

theorem split_fold_shift :
    ∀ (b : List Char) (L : List (List Char)) (r : List Char),
      b.foldl split_chunk_step (L, r) =
        (L ++ (b.foldl split_chunk_step ([], r)).1, (b.foldl split_chunk_step ([], r)).2)
  | [], L, r => by simp
  | c :: b, L, r => by
    simp only [List.foldl_cons, split_chunk_step]
    by_cases hc : c = newline_char
    · simp only [if_pos hc]
      rw [split_fold_shift b (L ++ [r]) [], split_fold_shift b ([] ++ [r]) []]
      simp [List.append_assoc]
    · simp only [if_neg hc]
      exact split_fold_shift b L (r ++ [c])

theorem split_complete_lines_append (buffer : List Char) (a b : List Char) :
    split_complete_lines buffer (a ++ b) =
      ((split_complete_lines buffer a).1 ++
          (split_complete_lines (split_complete_lines buffer a).2 b).1,
        (split_complete_lines (split_complete_lines buffer a).2 b).2) := by
  unfold split_complete_lines
  rw [List.foldl_append]
  rw [show a.foldl split_chunk_step ([], buffer) =
      ((a.foldl split_chunk_step ([], buffer)).1,
        (a.foldl split_chunk_step ([], buffer)).2) from rfl]
  rw [split_fold_shift b (a.foldl split_chunk_step ([], buffer)).1
    (a.foldl split_chunk_step ([], buffer)).2]

theorem process_lines_cons (st : EditParserState) (l : List Char)
    (lines : List (List Char)) :
    process_lines st (l :: lines) =
      ((process_lines (handle_parsed_line st l).1 lines).1,
        (handle_parsed_line st l).2 ++
          (process_lines (handle_parsed_line st l).1 lines).2) := by
  unfold process_lines
  simp only [List.foldl_cons]
  rw [foldl_acc_shift
    (fun (acc : EditParserState × List EditBlock) line =>
      let r := handle_parsed_line acc.1 line
      (r.1, acc.2 ++ r.2))
    handle_parsed_line (fun p y => rfl) lines
    (handle_parsed_line st l).1 ([] ++ (handle_parsed_line st l).2)]
  simp

theorem process_lines_append (st : EditParserState) (l1 l2 : List (List Char)) :
    process_lines st (l1 ++ l2) =
      ((process_lines (process_lines st l1).1 l2).1,
        (process_lines st l1).2 ++ (process_lines (process_lines st l1).1 l2).2) := by
  unfold process_lines
  rw [List.foldl_append]
  rw [show l1.foldl
      (fun (acc : EditParserState × List EditBlock) line =>
        let r := handle_parsed_line acc.1 line
        (r.1, acc.2 ++ r.2)) (st, []) =
      ((l1.foldl
        (fun (acc : EditParserState × List EditBlock) line =>
          let r := handle_parsed_line acc.1 line
          (r.1, acc.2 ++ r.2)) (st, [])).1,
        (l1.foldl
          (fun (acc : EditParserState × List EditBlock) line =>
            let r := handle_parsed_line acc.1 line
            (r.1, acc.2 ++ r.2)) (st, [])).2) from rfl]
  rw [foldl_acc_shift
    (fun (acc : EditParserState × List EditBlock) line =>
      let r := handle_parsed_line acc.1 line
      (r.1, acc.2 ++ r.2))
    handle_parsed_line (fun p y => rfl) l2 _ _]

theorem handle_parsed_line_set_buffer (st : EditParserState) (x line : List Char) :
    handle_parsed_line { st with buffer := x } line =
      ({ (handle_parsed_line st line).1 with buffer := x },
        (handle_parsed_line st line).2) := by
  obtain ⟨b, mo, ol, nl⟩ := st
  cases mo <;> simp only [handle_parsed_line] <;> split <;> rfl

theorem process_lines_set_buffer :
    ∀ (lines : List (List Char)) (st : EditParserState) (x : List Char),
      process_lines { st with buffer := x } lines =
        ({ (process_lines st lines).1 with buffer := x }, (process_lines st lines).2)
  | [], st, x => rfl
  | l :: lines, st, x => by
    rw [process_lines_cons, process_lines_cons, handle_parsed_line_set_buffer st x l,
      process_lines_set_buffer lines (handle_parsed_line st l).1 x]

theorem push_chunk_append (st : EditParserState) (a b : List Char) :
    push_chunk st (a ++ b) =
      ((push_chunk (push_chunk st a).1 b).1,
        (push_chunk st a).2 ++ (push_chunk (push_chunk st a).1 b).2) := by
  show ({ (process_lines st (split_complete_lines st.buffer (a ++ b)).1).1 with
      buffer := (split_complete_lines st.buffer (a ++ b)).2 },
    (process_lines st (split_complete_lines st.buffer (a ++ b)).1).2) = _
  rw [split_complete_lines_append st.buffer a b]
  rw [process_lines_append st (split_complete_lines st.buffer a).1
    (split_complete_lines (split_complete_lines st.buffer a).2 b).1]
  show _ = ({ (process_lines (push_chunk st a).1
      (split_complete_lines (push_chunk st a).1.buffer b).1).1 with
        buffer := (split_complete_lines (push_chunk st a).1.buffer b).2 },
    (push_chunk st a).2 ++
      (process_lines (push_chunk st a).1
        (split_complete_lines (push_chunk st a).1.buffer b).1).2)
  show _ = ({ (process_lines
      { (process_lines st (split_complete_lines st.buffer a).1).1 with
          buffer := (split_complete_lines st.buffer a).2 }
      (split_complete_lines (split_complete_lines st.buffer a).2 b).1).1 with
        buffer := (split_complete_lines (split_complete_lines st.buffer a).2 b).2 },
    (process_lines st (split_complete_lines st.buffer a).1).2 ++
      (process_lines
        { (process_lines st (split_complete_lines st.buffer a).1).1 with
            buffer := (split_complete_lines st.buffer a).2 }
        (split_complete_lines (split_complete_lines st.buffer a).2 b).1).2)
  rw [process_lines_set_buffer
    (split_complete_lines (split_complete_lines st.buffer a).2 b).1
    (process_lines st (split_complete_lines st.buffer a).1).1
    (split_complete_lines st.buffer a).2]

theorem push_all_flatten :
    ∀ (chunks : List (List Char)) (st : EditParserState),
      push_all st chunks = push_chunk st chunks.flatten
  | [], st => by
    simp [push_all, push_chunk, split_complete_lines, process_lines]
  | c :: cs, st => by
    have hshift := foldl_acc_shift
      (fun (acc : EditParserState × List EditBlock) chunk =>
        let r := push_chunk acc.1 chunk
        (r.1, acc.2 ++ r.2))
      push_chunk (fun p y => rfl) cs
    show cs.foldl _ ((push_chunk st c).1, [] ++ (push_chunk st c).2) = _
    rw [hshift (push_chunk st c).1 ([] ++ (push_chunk st c).2)]
    have hdef : cs.foldl
        (fun (acc : EditParserState × List EditBlock) chunk =>
          let r := push_chunk acc.1 chunk
          (r.1, acc.2 ++ r.2))
        ((push_chunk st c).1, []) = push_all (push_chunk st c).1 cs := rfl
    rw [hdef, push_all_flatten cs (push_chunk st c).1, List.flatten_cons,
      push_chunk_append st c cs.flatten]
    simp

/-! ## Claim theorem: parser chunk invariance (C9) -/

/-- Claim C9: feeding any partition of a response text chunk-by-chunk to one
parser instance yields exactly the same ordered sequence of `EditBlock`s as
feeding the concatenation in a single `push` call (the parser is modelled
from spec §4.2, since `edit_parser.rs` is not among the provided sources). -/
theorem claim_c9_chunk_invariance (chunks : List (List Char)) :
    (push_all edit_parser_start chunks).2 =
      (push_chunk edit_parser_start chunks.flatten).2 := by
  rw [push_all_flatten chunks edit_parser_start]

/-! ## Helper lemmas: alignment costs, states and the matrix -/

theorem deletion_cost_of_pos (b : Nat) : 1 ≤ deletion_cost_of b := by
  unfold deletion_cost_of WHITESPACE_DELETION_COST DELETION_COST
  split <;> omega

theorem insertion_cost_of_pos (b : Nat) : 1 ≤ insertion_cost_of b := by
  unfold insertion_cost_of WHITESPACE_INSERTION_COST INSERTION_COST
  split <;> omega

theorem U32_MAX_pos : 1 ≤ U32_MAX := by
  unfold U32_MAX
  omega

theorem saturating_add_pos (a b : Nat) (h : 1 ≤ b) : 1 ≤ saturating_add a b := by
  unfold saturating_add U32_MAX
  omega

theorem SearchState.min_cost (a b : SearchState) :
    (a.min b).cost = Min.min a.cost b.cost := by
  unfold SearchState.min
  split_ifs <;> omega

theorem SearchState.min_right_of_lt (a b : SearchState) (h : b.cost < a.cost) :
    a.min b = b := by
  unfold SearchState.min
  split_ifs <;> first | rfl | omega

theorem SearchMatrix.cols_set (m : SearchMatrix) (row col : Nat) (v : SearchState) :
    (m.set row col v).cols = m.cols := rfl

theorem SearchMatrix.length_set (m : SearchMatrix) (row col : Nat) (v : SearchState) :
    (m.set row col v).data.length = m.data.length := by
  unfold SearchMatrix.set
  simp

theorem SearchMatrix.get_set_self (m : SearchMatrix) (row col : Nat) (v : SearchState)
    (h : row * m.cols + col < m.data.length) :
    (m.set row col v).get row col = v := by
  unfold SearchMatrix.get SearchMatrix.set
  exact getD_set_self m.data (row * m.cols + col) v _ h

theorem SearchMatrix.get_set_ne (m : SearchMatrix) (row col row' col' : Nat)
    (v : SearchState) (h : row * m.cols + col ≠ row' * m.cols + col') :
    (m.set row col v).get row' col' = m.get row' col' := by
  unfold SearchMatrix.get SearchMatrix.set
  exact getD_set_other m.data _ _ v _ h

theorem flat_index_lt (r c R C : Nat) (hr : r ≤ R) (hc : c < C) :
    r * C + c < (R + 1) * C := by
  calc r * C + c < r * C + C := Nat.add_lt_add_left hc (r * C)
    _ = (r + 1) * C := (Nat.succ_mul r C).symm
    _ ≤ (R + 1) * C := Nat.mul_le_mul_right C (by omega)

theorem flat_index_lt_of_row_lt (r c r' c' C : Nat) (hc : c < C) (hrr : r < r') :
    r * C + c < r' * C + c' := by
  calc r * C + c < r * C + C := Nat.add_lt_add_left hc (r * C)
    _ = (r + 1) * C := (Nat.succ_mul r C).symm
    _ ≤ r' * C := Nat.mul_le_mul_right C hrr
    _ ≤ r' * C + c' := Nat.le_add_right _ _

theorem flat_index_ne (r c r' c' C : Nat) (hc : c < C) (hc' : c' < C)
    (h : r ≠ r' ∨ c ≠ c') : r * C + c ≠ r' * C + c' := by
  rcases Nat.lt_trichotomy r r' with hlt | heq | hgt
  · exact Nat.ne_of_lt (flat_index_lt_of_row_lt r c r' c' C hc hlt)
  · subst heq
    intro he
    have : c = c' := Nat.add_left_cancel he
    rcases h with h | h
    · exact h rfl
    · exact h this
  · exact (Nat.ne_of_lt (flat_index_lt_of_row_lt r' c' r c C hc' hgt)).symm

/-! ## Equation lemmas for the reference recurrence `cell` -/

theorem cell_zero (q b : List Nat) (c : Nat) :
    cell q b 0 c = SearchState.new 0 SearchDirection.Diagonal := by
  rw [cell]

theorem cell_succ_zero (q b : List Nat) (r : Nat) :
    cell q b (r + 1) 0 =
      SearchState.new (leading_cost q (r + 1)) SearchDirection.Diagonal := by
  rw [cell]

theorem cell_succ_succ (q b : List Nat) (r c : Nat) :
    cell q b (r + 1) (c + 1) =
      ((SearchState.new
          (saturating_add (cell q b r (c + 1)).cost (deletion_cost_of (q.getD r 0)))
          SearchDirection.Up).min
        (SearchState.new
          (saturating_add (cell q b (r + 1) c).cost (insertion_cost_of (b.getD c 0)))
          SearchDirection.Left)).min
        (SearchState.new
          (if q.getD r 0 == b.getD c 0 then (cell q b r c).cost
           else saturating_add (cell q b r c).cost
            (deletion_cost_of (q.getD r 0) + insertion_cost_of (b.getD c 0)))
          SearchDirection.Diagonal) := by
  rw [cell]

theorem leading_cost_succ (q : List Nat) (r : Nat) :
    leading_cost q (r + 1) =
      saturating_add (leading_cost q r) (deletion_cost_of (q.getD r 0)) := rfl

theorem leading_cost_pos (q : List Nat) (r : Nat) : 1 ≤ leading_cost q (r + 1) :=
  saturating_add_pos _ _ (deletion_cost_of_pos _)

/-! ## The imperative fill agrees with the reference recurrence -/

theorem fill_row_spec (q b : List Nat) (row : Nat) (hrow : row < q.length) :
    ∀ (bytes : List Nat) (col : Nat) (m : SearchMatrix),
      col + bytes.length = b.length →
      (∀ j, j < bytes.length → bytes.getD j 0 = b.getD (col + j) 0) →
      m.cols = b.length + 1 →
      m.data.length = (q.length + 1) * (b.length + 1) →
      (∀ r c, r ≤ row → c ≤ b.length → m.get r c = cell q b r c) →
      (∀ c, c ≤ col → m.get (row + 1) c = cell q b (row + 1) c) →
      (fill_row (q.getD row 0) (deletion_cost_of (q.getD row 0)) row bytes col m).cols
          = b.length + 1 ∧
      (fill_row (q.getD row 0) (deletion_cost_of (q.getD row 0)) row bytes col m).data.length
          = (q.length + 1) * (b.length + 1) ∧
      (∀ r c, r ≤ row + 1 → c ≤ b.length →
        (fill_row (q.getD row 0) (deletion_cost_of (q.getD row 0)) row bytes col m).get r c
          = cell q b r c)
  | [], col, m, hlen, _, hcols, hdlen, hprev, hcur => by
    have hcol : col = b.length := by simpa using hlen
    refine ⟨hcols, hdlen, ?_⟩
    intro r c hr hc
    show m.get r c = cell q b r c
    rcases Nat.lt_or_ge r (row + 1) with h | h
    · exact hprev r c (by omega) hc
    · have hr' : r = row + 1 := by omega
      subst hr'
      exact hcur c (by omega)
  | bb :: rest, col, m, hlen, hbytes, hcols, hdlen, hprev, hcur => by
    have hcol : col < b.length := by
      simp only [List.length_cons] at hlen
      omega
    have hbb : bb = b.getD col 0 := by simpa using hbytes 0 (by simp)
    have hup : m.get row (col + 1) = cell q b row (col + 1) :=
      hprev row (col + 1) (Nat.le_refl row) (by omega)
    have hleft : m.get (row + 1) col = cell q b (row + 1) col :=
      hcur col (Nat.le_refl col)
    have hdiag : m.get row col = cell q b row col :=
      hprev row col (Nat.le_refl row) (by omega)
    simp only [fill_row]
    rw [hbb, hup, hleft, hdiag, ← cell_succ_succ q b row col]
    have hb1 : (row + 1) * m.cols + (col + 1) < m.data.length := by
      rw [hcols, hdlen]
      exact flat_index_lt (row + 1) (col + 1) q.length (b.length + 1)
        (by omega) (by omega)
    have hprev' : ∀ r c, r ≤ row → c ≤ b.length →
        (m.set (row + 1) (col + 1) (cell q b (row + 1) (col + 1))).get r c = cell q b r c := by
      intro r c hr hc
      rw [SearchMatrix.get_set_ne m (row + 1) (col + 1) r c _ ?_]
      · exact hprev r c hr hc
      · rw [hcols]
        exact flat_index_ne (row + 1) (col + 1) r c (b.length + 1)
          (by omega) (by omega) (Or.inl (by omega))
    have hcur' : ∀ c, c ≤ col + 1 →
        (m.set (row + 1) (col + 1) (cell q b (row + 1) (col + 1))).get (row + 1) c
          = cell q b (row + 1) c := by
      intro c hc
      rcases Nat.lt_or_ge c (col + 1) with h | h
      · rw [SearchMatrix.get_set_ne m (row + 1) (col + 1) (row + 1) c _ ?_]
        · exact hcur c (by omega)
        · rw [hcols]
          exact flat_index_ne (row + 1) (col + 1) (row + 1) c (b.length + 1)
            (by omega) (by omega) (Or.inr (by omega))
      · have hc' : c = col + 1 := by omega
        subst hc'
        exact SearchMatrix.get_set_self m (row + 1) (col + 1) _ hb1
    exact fill_row_spec q b row hrow rest (col + 1)
      (m.set (row + 1) (col + 1) (cell q b (row + 1) (col + 1)))
      (by simp only [List.length_cons] at hlen; omega)
      (fun j hj => by
        have := hbytes (j + 1) (by simp only [List.length_cons]; omega)
        simpa [Nat.add_assoc, Nat.add_comm 1 j] using this)
      (by rw [SearchMatrix.cols_set]; exact hcols)
      (by rw [SearchMatrix.length_set]; exact hdlen)
      hprev' hcur'

theorem fill_rows_spec (q b : List Nat) :
    ∀ (qbytes : List Nat) (row ldc : Nat) (m : SearchMatrix),
      row + qbytes.length = q.length →
      (∀ j, j < qbytes.length → qbytes.getD j 0 = q.getD (row + j) 0) →
      ldc = leading_cost q row →
      m.cols = b.length + 1 →
      m.data.length = (q.length + 1) * (b.length + 1) →
      (∀ r c, r ≤ row → c ≤ b.length → m.get r c = cell q b r c) →
      ∀ r c, r ≤ q.length → c ≤ b.length →
        (fill_rows b qbytes row ldc m).get r c = cell q b r c
  | [], row, ldc, m, hlen, _, _, _, _, hprev => by
    intro r c hr hc
    show m.get r c = cell q b r c
    have hrow : row = q.length := by simpa using hlen
    exact hprev r c (by omega) hc
  | qb :: rest, row, ldc, m, hlen, hqbytes, hldc, hcols, hdlen, hprev => by
    have hrow : row < q.length := by
      simp only [List.length_cons] at hlen
      omega
    have hqb : qb = q.getD row 0 := by simpa using hqbytes 0 (by simp)
    simp only [fill_rows]
    rw [hqb, hldc, ← leading_cost_succ q row]
    have hb0 : (row + 1) * m.cols + 0 < m.data.length := by
      rw [hcols, hdlen]
      exact flat_index_lt (row + 1) 0 q.length (b.length + 1) (by omega) (by omega)
    have hprev1 : ∀ r c, r ≤ row → c ≤ b.length →
        (m.set (row + 1) 0
          (SearchState.new (leading_cost q (row + 1)) SearchDirection.Diagonal)).get r c
          = cell q b r c := by
      intro r c hr hc
      rw [SearchMatrix.get_set_ne m (row + 1) 0 r c _ ?_]
      · exact hprev r c hr hc
      · rw [hcols]
        exact flat_index_ne (row + 1) 0 r c (b.length + 1)
          (by omega) (by omega) (Or.inl (by omega))
    have hcur1 : ∀ c, c ≤ 0 →
        (m.set (row + 1) 0
          (SearchState.new (leading_cost q (row + 1)) SearchDirection.Diagonal)).get
            (row + 1) c = cell q b (row + 1) c := by
      intro c hc
      have hc' : c = 0 := by omega
      subst hc'
      rw [SearchMatrix.get_set_self m (row + 1) 0 _ hb0, cell_succ_zero]
    have hfill := fill_row_spec q b row hrow b 0
      (m.set (row + 1) 0
        (SearchState.new (leading_cost q (row + 1)) SearchDirection.Diagonal))
      (by omega)
      (fun j hj => by simp)
      (by rw [SearchMatrix.cols_set]; exact hcols)
      (by rw [SearchMatrix.length_set]; exact hdlen)
      hprev1 hcur1
    exact fill_rows_spec q b rest (row + 1) (leading_cost q (row + 1)) _
      (by simp only [List.length_cons] at hlen; omega)
      (fun j hj => by
        have := hqbytes (j + 1) (by simp only [List.length_cons]; omega)
        simpa [Nat.add_assoc, Nat.add_comm 1 j] using this)
      rfl hfill.1 hfill.2.1 hfill.2.2

theorem search_matrix_eq_cell (q b : List Nat) (r c : Nat)
    (hr : r ≤ q.length) (hc : c ≤ b.length) :
    (search_matrix q b).get r c = cell q b r c := by
  unfold search_matrix
  apply fill_rows_spec q b q 0 0
    (SearchMatrix.new (q.length + 1) (b.length + 1))
    (by omega) (fun j hj => by simp) rfl rfl
    (by
      unfold SearchMatrix.new
      simp [List.length_replicate])
    (by
      intro r' c' hr' hc'
      have hr0 : r' = 0 := by omega
      subst hr0
      show (SearchMatrix.new (q.length + 1) (b.length + 1)).get 0 c' = cell q b 0 c'
      unfold SearchMatrix.new SearchMatrix.get
      rw [cell_zero]
      exact getD_replicate_self _ _ _)
    r c hr hc

/-! ## The bottom-row scan: characterization -/

theorem best_match_end_eq_scan (m : SearchMatrix) (query_len buffer_len : Nat) :
    best_match_end m query_len buffer_len =
      scan_bottom_row m query_len buffer_len buffer_len := rfl

theorem scan_bottom_row_succ (m : SearchMatrix) (query_len e0 n : Nat) :
    scan_bottom_row m query_len e0 (n + 1) =
      (if (m.get query_len (n + 1)).cost < (scan_bottom_row m query_len e0 n).1
       then ((m.get query_len (n + 1)).cost, n + 1)
       else scan_bottom_row m query_len e0 n) := by
  unfold scan_bottom_row
  rw [List.range'_1_concat]
  have h1n : 1 + n = n + 1 := Nat.add_comm 1 n
  rw [h1n, List.foldl_append]
  rfl

theorem best_scan_spec (m : SearchMatrix) (query_len e0 : Nat) :
    ∀ n : Nat,
      (scan_bottom_row m query_len e0 n = (U32_MAX, e0) ∧
        ∀ c, 1 ≤ c → c ≤ n → U32_MAX ≤ (m.get query_len c).cost) ∨
      (1 ≤ (scan_bottom_row m query_len e0 n).2 ∧
        (scan_bottom_row m query_len e0 n).2 ≤ n ∧
        (scan_bottom_row m query_len e0 n).1 =
          (m.get query_len (scan_bottom_row m query_len e0 n).2).cost ∧
        (∀ c, 1 ≤ c → c ≤ n →
          (scan_bottom_row m query_len e0 n).1 ≤ (m.get query_len c).cost) ∧
        (∀ c, 1 ≤ c → c < (scan_bottom_row m query_len e0 n).2 →
          (scan_bottom_row m query_len e0 n).1 < (m.get query_len c).cost))
  | 0 => by
    left
    refine ⟨rfl, ?_⟩
    intro c hc1 hc2
    omega
  | n + 1 => by
    rcases best_scan_spec m query_len e0 n with ⟨hres, hbig⟩ | ⟨h1, h2, h3, h4, h5⟩
    · by_cases hc : (m.get query_len (n + 1)).cost < (scan_bottom_row m query_len e0 n).1
      · right
        have hr : scan_bottom_row m query_len e0 (n + 1) =
            ((m.get query_len (n + 1)).cost, n + 1) := by
          rw [scan_bottom_row_succ, if_pos hc]
        rw [hres] at hc
        dsimp only at hc
        rw [hr]
        dsimp only
        refine ⟨by omega, Nat.le_refl _, rfl, ?_, ?_⟩
        · intro c hc1 hc2
          rcases Nat.lt_or_ge c (n + 1) with h | h
          · have := hbig c hc1 (by omega)
            omega
          · have hcn : c = n + 1 := by omega
            subst hcn
            exact Nat.le_refl _
        · intro c hc1 hc2
          have := hbig c hc1 (by omega)
          omega
      · left
        have hr : scan_bottom_row m query_len e0 (n + 1) =
            scan_bottom_row m query_len e0 n := by
          rw [scan_bottom_row_succ, if_neg hc]
        rw [hres] at hc
        dsimp only at hc
        rw [hr, hres]
        refine ⟨rfl, ?_⟩
        intro c hc1 hc2
        rcases Nat.lt_or_ge c (n + 1) with h | h
        · exact hbig c hc1 (by omega)
        · have hcn : c = n + 1 := by omega
          subst hcn
          omega
    · by_cases hc : (m.get query_len (n + 1)).cost < (scan_bottom_row m query_len e0 n).1
      · right
        have hr : scan_bottom_row m query_len e0 (n + 1) =
            ((m.get query_len (n + 1)).cost, n + 1) := by
          rw [scan_bottom_row_succ, if_pos hc]
        rw [hr]
        dsimp only
        refine ⟨by omega, Nat.le_refl _, rfl, ?_, ?_⟩
        · intro c hc1 hc2
          rcases Nat.lt_or_ge c (n + 1) with h | h
          · have := h4 c hc1 (by omega)
            omega
          · have hcn : c = n + 1 := by omega
            subst hcn
            exact Nat.le_refl _
        · intro c hc1 hc2
          have := h4 c hc1 (by omega)
          omega
      · right
        have hr : scan_bottom_row m query_len e0 (n + 1) =
            scan_bottom_row m query_len e0 n := by
          rw [scan_bottom_row_succ, if_neg hc]
        rw [hr]
        refine ⟨h1, by omega, h3, ?_, h5⟩
        intro c hc1 hc2
        rcases Nat.lt_or_ge c (n + 1) with h | h
        · exact h4 c hc1 (by omega)
        · have hcn : c = n + 1 := by omega
          subst hcn
          omega

/-! ## Claim theorems: the alignment recurrence (C6) and the scan (C7) -/

/-- Claim C6: every interior cell `(row+1, col+1)` of the filled alignment
matrix is the minimum of the up neighbour plus the deletion cost (10, or 1
for an ASCII-whitespace query byte), the left neighbour plus the insertion
cost (3, or 1 for an ASCII-whitespace document byte), and the diagonal
neighbour plus 0 on equal bytes or plus the sum of both costs otherwise
(additions saturate at `u32::MAX` as in the source). -/
theorem claim_c6_recurrence (q b : List Nat) (r c : Nat)
    (hr : r < q.length) (hc : c < b.length) :
    ((search_matrix q b).get (r + 1) (c + 1)).cost =
      Min.min
        (Min.min
          (saturating_add ((search_matrix q b).get r (c + 1)).cost
            (deletion_cost_of (q.getD r 0)))
          (saturating_add ((search_matrix q b).get (r + 1) c).cost
            (insertion_cost_of (b.getD c 0))))
        (if q.getD r 0 == b.getD c 0 then ((search_matrix q b).get r c).cost
         else saturating_add ((search_matrix q b).get r c).cost
          (deletion_cost_of (q.getD r 0) + insertion_cost_of (b.getD c 0))) := by
  rw [search_matrix_eq_cell q b (r + 1) (c + 1) (by omega) (by omega),
    search_matrix_eq_cell q b r (c + 1) (by omega) (by omega),
    search_matrix_eq_cell q b (r + 1) c (by omega) (by omega),
    search_matrix_eq_cell q b r c (by omega) (by omega),
    cell_succ_succ, SearchState.min_cost, SearchState.min_cost]
  rfl

/-- Witness for C6 at a concrete input (query byte 97, buffer byte 32). -/
theorem claim_c6_recurrence_witness :
    0 < ([97] : List Nat).length ∧ 0 < ([32] : List Nat).length ∧
    ((search_matrix [97] [32]).get 1 1).cost =
      Min.min
        (Min.min
          (saturating_add ((search_matrix [97] [32]).get 0 1).cost
            (deletion_cost_of (([97] : List Nat).getD 0 0)))
          (saturating_add ((search_matrix [97] [32]).get 1 0).cost
            (insertion_cost_of (([32] : List Nat).getD 0 0))))
        (if ([97] : List Nat).getD 0 0 == ([32] : List Nat).getD 0 0
         then ((search_matrix [97] [32]).get 0 0).cost
         else saturating_add ((search_matrix [97] [32]).get 0 0).cost
          (deletion_cost_of (([97] : List Nat).getD 0 0) +
            insertion_cost_of (([32] : List Nat).getD 0 0))) :=
  ⟨by decide, by decide, claim_c6_recurrence [97] [32] 0 0 (by decide) (by decide)⟩

/-- Claim C7, counterexample: for query byte `97` against document byte `98`,
the minimum over the *entire* bottom row (columns 0 and 1) is 10, attained
already at column 0; the lowest column attaining it is 0, yet the scan
selects column 1, because the code scans columns `1..=buffer_len` only. -/
theorem claim_c7_counterexample :
    ((search_matrix [97] [98]).get 1 0).cost = 10 ∧
    ((search_matrix [97] [98]).get 1 1).cost = 10 ∧
    (best_match_end (search_matrix [97] [98]) 1 1).2 = 1 := by decide

/-- Claim C7, amended: the scan covers bottom-row columns `1..=buffer_len`
(column 0, the empty-document prefix, is excluded); among those columns the
selected end attains the minimum cost, and every smaller scanned column has
strictly larger cost (lowest column wins ties). Stated under the benign
assumption that some scanned column costs less than `u32::MAX`. -/
theorem claim_c7_amended (q b : List Nat) (c0 : Nat)
    (h1 : 1 ≤ c0) (h2 : c0 ≤ b.length)
    (h3 : ((search_matrix q b).get q.length c0).cost < U32_MAX) :
    1 ≤ (best_match_end (search_matrix q b) q.length b.length).2 ∧
    (best_match_end (search_matrix q b) q.length b.length).2 ≤ b.length ∧
    (∀ c, 1 ≤ c → c ≤ b.length →
      ((search_matrix q b).get q.length
          (best_match_end (search_matrix q b) q.length b.length).2).cost ≤
        ((search_matrix q b).get q.length c).cost) ∧
    (∀ c, 1 ≤ c → c < (best_match_end (search_matrix q b) q.length b.length).2 →
      ((search_matrix q b).get q.length
          (best_match_end (search_matrix q b) q.length b.length).2).cost <
        ((search_matrix q b).get q.length c).cost) := by
  rw [best_match_end_eq_scan]
  rcases best_scan_spec (search_matrix q b) q.length b.length b.length with
    ⟨hres, hbig⟩ | ⟨ha, hb, hcost, hmin, hstrict⟩
  · exfalso
    have := hbig c0 h1 h2
    omega
  · refine ⟨ha, hb, ?_, ?_⟩
    · intro c hc1 hc2
      rw [← hcost]
      exact hmin c hc1 hc2
    · intro c hc1 hc2
      rw [← hcost]
      exact hstrict c hc1 hc2

/-- Witness for the amended C7 at a concrete input. -/
theorem claim_c7_amended_witness :
    (1 ≤ 1 ∧ 1 ≤ ([97] : List Nat).length ∧
      ((search_matrix [97] [97]).get 1 1).cost < U32_MAX) ∧
    1 ≤ (best_match_end (search_matrix [97] [97]) 1 1).2 ∧
    (best_match_end (search_matrix [97] [97]) 1 1).2 ≤ ([97] : List Nat).length ∧
    (∀ c, 1 ≤ c → c ≤ ([97] : List Nat).length →
      ((search_matrix [97] [97]).get 1
          (best_match_end (search_matrix [97] [97]) 1 1).2).cost ≤
        ((search_matrix [97] [97]).get 1 c).cost) ∧
    (∀ c, 1 ≤ c → c < (best_match_end (search_matrix [97] [97]) 1 1).2 →
      ((search_matrix [97] [97]).get 1
          (best_match_end (search_matrix [97] [97]) 1 1).2).cost <
        ((search_matrix [97] [97]).get 1 c).cost) :=
  ⟨⟨by decide, by decide, by decide⟩,
    claim_c7_amended [97] [97] 1 (by decide) (by decide) (by decide)⟩

/-! ## Zero-cost cells are exact matches -/

theorem SearchState.cost_new (c : Nat) (d : SearchDirection) :
    (SearchState.new c d).cost = c := rfl

theorem SearchState.direction_new (c : Nat) (d : SearchDirection) :
    (SearchState.new c d).direction = d := rfl

theorem cell_cost_zero_match (q b : List Nat) :
    ∀ (r c : Nat), r ≤ q.length → c ≤ b.length →
      (cell q b r c).cost = 0 →
      r ≤ c ∧ ∀ j, j < r → q.getD j 0 = b.getD (c - r + j) 0
  | 0, c, _, _, _ => ⟨Nat.zero_le c, fun j hj => absurd hj (by omega)⟩
  | r + 1, 0, hr, _, hz => by
    exfalso
    rw [cell_succ_zero, SearchState.cost_new] at hz
    have := leading_cost_pos q r
    omega
  | r + 1, c + 1, hr, hc, hz => by
    rw [cell_succ_succ, SearchState.min_cost, SearchState.min_cost,
      SearchState.cost_new, SearchState.cost_new, SearchState.cost_new] at hz
    have hup := saturating_add_pos (cell q b r (c + 1)).cost _
      (deletion_cost_of_pos (q.getD r 0))
    have hleft := saturating_add_pos (cell q b (r + 1) c).cost _
      (insertion_cost_of_pos (b.getD c 0))
    by_cases hqb : (q.getD r 0 == b.getD c 0) = true
    · rw [if_pos hqb] at hz
      have hdz : (cell q b r c).cost = 0 := by omega
      obtain ⟨hrc, hjeq⟩ := cell_cost_zero_match q b r c (by omega) (by omega) hdz
      refine ⟨by omega, ?_⟩
      intro j hj
      rcases Nat.lt_or_ge j r with h | h
      · have := hjeq j h
        have harith : c + 1 - (r + 1) + j = c - r + j := by omega
        rw [harith]
        exact this
      · have hjr : j = r := by omega
        subst hjr
        have harith : c + 1 - (j + 1) + j = c := by omega
        rw [harith]
        exact eq_of_beq hqb
    · rw [if_neg hqb] at hz
      have hdiag := saturating_add_pos (cell q b r c).cost
        (deletion_cost_of (q.getD r 0) + insertion_cost_of (b.getD c 0))
        (by
          have := deletion_cost_of_pos (q.getD r 0)
          omega)
      omega

theorem match_cell_diag (q b : List Nat) (p : Nat)
    (hpe : p + q.length ≤ b.length)
    (heq : ∀ j, j < q.length → q.getD j 0 = b.getD (p + j) 0) :
    ∀ r, r ≤ q.length →
      cell q b r (p + r) = SearchState.new 0 SearchDirection.Diagonal
  | 0, _ => cell_zero q b (p + 0)
  | r + 1, hr => by
    have ih := match_cell_diag q b p hpe heq r (by omega)
    have hqj : q.getD r 0 = b.getD (p + r) 0 := heq r (by omega)
    have hpr : p + (r + 1) = (p + r) + 1 := by omega
    rw [hpr, cell_succ_succ, ih]
    rw [show (q.getD r 0 == b.getD (p + r) 0) = true from by rw [hqj]; simp]
    rw [if_pos rfl, SearchState.cost_new]
    apply SearchState.min_right_of_lt
    rw [SearchState.min_cost, SearchState.cost_new, SearchState.cost_new,
      SearchState.cost_new]
    have hup := saturating_add_pos (cell q b r (p + r + 1)).cost _
      (deletion_cost_of_pos (q.getD r 0))
    have hleft := saturating_add_pos (cell q b (r + 1) (p + r)).cost _
      (insertion_cost_of_pos (b.getD (p + r) 0))
    omega

/-! ## Traceback along a zero-cost diagonal -/

theorem trace_back_diag (m : SearchMatrix) (p : Nat) :
    ∀ (r fuel : Nat), r ≤ fuel →
      (∀ r', 1 ≤ r' → r' ≤ r →
        (m.get r' (p + r')).direction = SearchDirection.Diagonal) →
      trace_back m fuel r (p + r) = p
  | 0, 0, _, _ => rfl
  | 0, fuel + 1, _, _ => rfl
  | r + 1, 0, hrf, _ => absurd hrf (by omega)
  | r + 1, fuel + 1, hrf, hdiag => by
    show trace_back m (fuel + 1) (r + 1) (p + (r + 1)) = p
    rw [trace_back]
    rw [if_neg (by omega : ¬p + (r + 1) = 0)]
    rw [show p + (r + 1) = p + r + 1 from by omega]
    rw [show (m.get (r + 1) (p + r + 1)).direction = SearchDirection.Diagonal from by
      have := hdiag (r + 1) (by omega) (Nat.le_refl _)
      rw [show p + (r + 1) = p + r + 1 from by omega] at this
      exact this]
    rw [show p + r + 1 - 1 = p + r from by omega]
    exact trace_back_diag m p r fuel (by omega)
      (fun r' h1 h2 => hdiag r' h1 (by omega))

/-! ## UTF-8 byte facts and char-boundary clipping -/

theorem utf8_bytes_append (s t : String) :
    utf8_bytes (s ++ t) = utf8_bytes s ++ utf8_bytes t := by
  unfold utf8_bytes
  rw [String.data_append, List.map_append, List.flatten_append]

theorem not_cont_of_lt (b : Nat) (h : b < 128) : is_continuation_byte b = false := by
  simp [is_continuation_byte]
  omega

theorem not_cont_of_ge (b : Nat) (h : 192 ≤ b) : is_continuation_byte b = false := by
  simp [is_continuation_byte]
  omega

theorem encode_utf8_char_head (ch : Char) :
    ∃ hd tl, encode_utf8_char ch = hd :: tl ∧ is_continuation_byte hd = false := by
  simp only [encode_utf8_char]
  split_ifs with h1 h2 h3
  · exact ⟨ch.toNat, [], rfl, not_cont_of_lt _ h1⟩
  · exact ⟨192 + ch.toNat / 64, _, rfl, not_cont_of_ge _ (by omega)⟩
  · exact ⟨224 + ch.toNat / 4096, _, rfl, not_cont_of_ge _ (by omega)⟩
  · exact ⟨240 + ch.toNat / 262144, _, rfl, not_cont_of_ge _ (by omega)⟩

theorem utf8_bytes_head (s : String) (hs : s.data ≠ []) :
    ∃ hd tl, utf8_bytes s = hd :: tl ∧ is_continuation_byte hd = false := by
  obtain ⟨ch, rest, hdata⟩ := List.exists_cons_of_ne_nil hs
  obtain ⟨hd, tl, henc, hcont⟩ := encode_utf8_char_head ch
  refine ⟨hd, tl ++ (rest.map encode_utf8_char).flatten, ?_, hcont⟩
  unfold utf8_bytes
  rw [hdata, List.map_cons, List.flatten_cons, henc]
  rfl

theorem utf8_bytes_ne_nil_data (s : String) (hs : utf8_bytes s ≠ []) : s.data ≠ [] := by
  intro hd
  apply hs
  unfold utf8_bytes
  rw [hd]
  rfl

theorem is_char_boundary_true (buffer : List Nat) (o : Nat)
    (h : o = 0 ∨ o = buffer.length ∨ is_continuation_byte (buffer.getD o 0) = false) :
    is_char_boundary buffer o = true := by
  unfold is_char_boundary
  rcases h with h | h | h
  · subst h
    simp
  · subst h
    simp
  · rw [h]
    simp

theorem clip_offset_left_boundary (buffer : List Nat) (o : Nat)
    (ho : o ≤ buffer.length) (h : is_char_boundary buffer o = true) :
    clip_offset_left buffer o = o := by
  unfold clip_offset_left
  rw [Nat.min_eq_left ho]
  cases o with
  | zero => rfl
  | succ o' =>
    unfold clip_left_go
    rw [h]
    rfl

theorem clip_offset_right_boundary (buffer : List Nat) (o : Nat)
    (ho : o ≤ buffer.length) (h : is_char_boundary buffer o = true) :
    clip_offset_right buffer o = o := by
  unfold clip_offset_right
  rw [Nat.min_eq_left ho]
  cases hfuel : buffer.length - o with
  | zero => rfl
  | succ f =>
    unfold clip_right_go
    rw [h]
    rfl

/-! ## The resolver on an exact, unique occurrence -/

theorem resolve_location_exact (pre qb suf : List Nat)
    (hq0 : qb ≠ [])
    (hbp : is_continuation_byte ((pre ++ qb ++ suf).getD pre.length 0) = false)
    (hbe : pre.length + qb.length = (pre ++ qb ++ suf).length ∨
      is_continuation_byte
        ((pre ++ qb ++ suf).getD (pre.length + qb.length) 0) = false)
    (huniq : ∀ i, byte_match_at (pre ++ qb ++ suf) qb i → i = pre.length) :
    resolve_location (pre ++ qb ++ suf) qb =
      line_snapped_range (pre ++ qb ++ suf) pre.length (pre.length + qb.length) := by
  have hql : 1 ≤ qb.length := List.length_pos.mpr hq0
  have hlen : (pre ++ qb ++ suf).length = pre.length + qb.length + suf.length := by
    simp [List.length_append]
    omega
  have hocc : ∀ j, j < qb.length →
      qb.getD j 0 = (pre ++ qb ++ suf).getD (pre.length + j) 0 := by
    intro j hj
    rw [List.append_assoc, getD_append_right pre (qb ++ suf) j 0,
      getD_append_left qb suf j 0 hj]
  have hmx : ∀ r, r ≤ qb.length →
      (search_matrix qb (pre ++ qb ++ suf)).get r (pre.length + r) =
        SearchState.new 0 SearchDirection.Diagonal := by
    intro r hr
    rw [search_matrix_eq_cell qb _ r (pre.length + r) hr (by rw [hlen]; omega)]
    exact match_cell_diag qb _ pre.length (by rw [hlen]; omega) hocc r hr
  have hzero_unique : ∀ c, c ≤ (pre ++ qb ++ suf).length →
      ((search_matrix qb (pre ++ qb ++ suf)).get qb.length c).cost = 0 →
      c = pre.length + qb.length := by
    intro c hc hzc
    rw [search_matrix_eq_cell qb _ qb.length c (Nat.le_refl _) hc] at hzc
    obtain ⟨hrc, hjeq⟩ :=
      cell_cost_zero_match qb (pre ++ qb ++ suf) qb.length c (Nat.le_refl _) hc hzc
    have hm : byte_match_at (pre ++ qb ++ suf) qb (c - qb.length) := by
      refine ⟨by omega, ?_⟩
      intro j hj
      exact hjeq j hj
    have := huniq (c - qb.length) hm
    omega
  have hcost_e : ((search_matrix qb (pre ++ qb ++ suf)).get qb.length
      (pre.length + qb.length)).cost = 0 := by
    rw [hmx qb.length (Nat.le_refl _)]
    rfl
  have hbest : (best_match_end (search_matrix qb (pre ++ qb ++ suf)) qb.length
      (pre ++ qb ++ suf).length).2 = pre.length + qb.length := by
    rw [best_match_end_eq_scan]
    rcases best_scan_spec (search_matrix qb (pre ++ qb ++ suf)) qb.length
        (pre ++ qb ++ suf).length (pre ++ qb ++ suf).length with
      ⟨hres, hbig⟩ | ⟨h1, h2, h3, h4, h5⟩
    · exfalso
      have hb := hbig (pre.length + qb.length) (by omega) (by rw [hlen]; omega)
      rw [hcost_e] at hb
      have := U32_MAX_pos
      omega
    · have hs1 := h4 (pre.length + qb.length) (by omega) (by rw [hlen]; omega)
      rw [hcost_e] at hs1
      have hz2 : ((search_matrix qb (pre ++ qb ++ suf)).get qb.length
          (scan_bottom_row (search_matrix qb (pre ++ qb ++ suf)) qb.length
            (pre ++ qb ++ suf).length (pre ++ qb ++ suf).length).2).cost = 0 := by
        rw [← h3]
        omega
      exact hzero_unique _ h2 hz2
  have htb : trace_back (search_matrix qb (pre ++ qb ++ suf))
      (qb.length + (pre.length + qb.length)) qb.length (pre.length + qb.length) =
      pre.length := by
    exact trace_back_diag (search_matrix qb (pre ++ qb ++ suf)) pre.length qb.length
      (qb.length + (pre.length + qb.length)) (by omega)
      (fun r' h1 h2 => by rw [hmx r' h2]; rfl)
  have hclipL : clip_offset_left (pre ++ qb ++ suf) pre.length = pre.length :=
    clip_offset_left_boundary _ _ (by rw [hlen]; omega)
      (is_char_boundary_true _ _ (Or.inr (Or.inr hbp)))
  have hclipR : clip_offset_right (pre ++ qb ++ suf) (pre.length + qb.length) =
      pre.length + qb.length := by
    apply clip_offset_right_boundary _ _ (by rw [hlen]; omega)
    apply is_char_boundary_true
    rcases hbe with h | h
    · exact Or.inr (Or.inl h)
    · exact Or.inr (Or.inr h)
  simp only [resolve_location, line_snapped_range]
  rw [hbest, htb, hclipL, hclipR]

/-! ## Claim theorem: exact unique substrings resolve to the line-snapped
occurrence (C4) -/

/-- Claim C4: for a document `D = s1 ++ q ++ s2` and a query `q` whose bytes
occur uniquely in `D`'s bytes, `resolve_location` returns exactly the
occurrence's byte range `[|s1|, |s1| + |q|)` widened to whole-line
boundaries: the start column is forced to 0, and the end, when its column is
nonzero, is forced to the end of its line. -/
theorem claim_c4_exact_substring (s1 q s2 : String)
    (huniq : ∀ i, byte_match_at (utf8_bytes (s1 ++ q ++ s2)) (utf8_bytes q) i →
      i = (utf8_bytes s1).length) :
    resolve_location (utf8_bytes (s1 ++ q ++ s2)) (utf8_bytes q) =
      line_snapped_range (utf8_bytes (s1 ++ q ++ s2)) (utf8_bytes s1).length
        ((utf8_bytes s1).length + (utf8_bytes q).length) := by
  have hsplit : utf8_bytes (s1 ++ q ++ s2) =
      utf8_bytes s1 ++ utf8_bytes q ++ utf8_bytes s2 := by
    rw [utf8_bytes_append, utf8_bytes_append]
  by_cases hq0 : utf8_bytes q = []
  · have hm0 : byte_match_at (utf8_bytes (s1 ++ q ++ s2)) (utf8_bytes q) 0 :=
      ⟨by rw [hq0]; simp, by rw [hq0]; intro j hj; simp at hj⟩
    have hmL : byte_match_at (utf8_bytes (s1 ++ q ++ s2)) (utf8_bytes q)
        (utf8_bytes (s1 ++ q ++ s2)).length :=
      ⟨by rw [hq0]; simp, by rw [hq0]; intro j hj; simp at hj⟩
    have hp0 := huniq 0 hm0
    have hpL := huniq _ hmL
    have hDnil : utf8_bytes (s1 ++ q ++ s2) = [] := by
      have : (utf8_bytes (s1 ++ q ++ s2)).length = 0 := by omega
      exact List.length_eq_zero.mp this
    rw [hDnil, hq0, ← hp0]
    decide
  · have hdata : q.data ≠ [] := utf8_bytes_ne_nil_data q hq0
    obtain ⟨hd, tl, hqhead, hcont⟩ := utf8_bytes_head q hdata
    have hbyte_p : (utf8_bytes s1 ++ utf8_bytes q ++ utf8_bytes s2).getD
        (utf8_bytes s1).length 0 = hd := by
      rw [List.append_assoc,
        show (utf8_bytes s1).length = (utf8_bytes s1).length + 0 from by omega,
        getD_append_right (utf8_bytes s1) (utf8_bytes q ++ utf8_bytes s2) 0 0,
        hqhead]
      rfl
    have hbp : is_continuation_byte
        ((utf8_bytes s1 ++ utf8_bytes q ++ utf8_bytes s2).getD
          (utf8_bytes s1).length 0) = false := by
      rw [hbyte_p]
      exact hcont
    have hbe : (utf8_bytes s1).length + (utf8_bytes q).length =
        (utf8_bytes s1 ++ utf8_bytes q ++ utf8_bytes s2).length ∨
        is_continuation_byte
          ((utf8_bytes s1 ++ utf8_bytes q ++ utf8_bytes s2).getD
            ((utf8_bytes s1).length + (utf8_bytes q).length) 0) = false := by
      by_cases hs2 : utf8_bytes s2 = []
      · left
        rw [hs2]
        simp [List.length_append]
      · right
        obtain ⟨hd2, tl2, hs2head, hcont2⟩ :=
          utf8_bytes_head s2 (utf8_bytes_ne_nil_data s2 hs2)
        have hbyte_e : (utf8_bytes s1 ++ utf8_bytes q ++ utf8_bytes s2).getD
            ((utf8_bytes s1).length + (utf8_bytes q).length) 0 = hd2 := by
          rw [show (utf8_bytes s1).length + (utf8_bytes q).length =
              (utf8_bytes s1 ++ utf8_bytes q).length + 0 from by
                simp [List.length_append],
            getD_append_right (utf8_bytes s1 ++ utf8_bytes q) (utf8_bytes s2) 0 0,
            hs2head]
          rfl
        rw [hbyte_e]
        exact hcont2
    rw [hsplit] at huniq ⊢
    exact resolve_location_exact (utf8_bytes s1) (utf8_bytes q) (utf8_bytes s2)
      hq0 hbp hbe huniq

/-- Witness for C4: document `"ab\ncd\n"`, query `"cd"` (unique occurrence at
byte 3); the resolver returns the line-snapped second line, rows 1..1 with
the end forced to the end of line 1. -/
theorem claim_c4_exact_substring_witness :
    (∀ i, byte_match_at (utf8_bytes ("ab\n" ++ "cd" ++ "\n")) (utf8_bytes ("cd")) i →
      i = (utf8_bytes ("ab\n")).length) ∧
    resolve_location (utf8_bytes ("ab\n" ++ "cd" ++ "\n")) (utf8_bytes ("cd")) =
      line_snapped_range (utf8_bytes ("ab\n" ++ "cd" ++ "\n"))
        (utf8_bytes ("ab\n")).length
        ((utf8_bytes ("ab\n")).length + (utf8_bytes ("cd")).length) ∧
    resolve_location (utf8_bytes ("ab\n" ++ "cd" ++ "\n")) (utf8_bytes ("cd")) =
      (Point.mk 1 0, Point.mk 1 2) :=
  have huniq : ∀ i, byte_match_at (utf8_bytes ("ab\n" ++ "cd" ++ "\n"))
      (utf8_bytes ("cd")) i → i = (utf8_bytes ("ab\n")).length := by
    intro i h
    have h1 : i + 2 ≤ 6 := h.1
    have h2 : i ≤ 4 := by omega
    interval_cases i
    · exact absurd h (by decide)
    · exact absurd h (by decide)
    · exact absurd h (by decide)
    · rfl
    · exact absurd h (by decide)
  ⟨huniq, claim_c4_exact_substring ("ab\n") ("cd") ("\n") huniq, by decide⟩
